import Mathlib

/-!
# clickdrag: tile names, neighbour expansion, the concurrent crawl and the index table

A shallow embedding of `main.go`.

* `name` is the `fmt.Sprintf("%d%s%d%s.png", ...)` of the source; `%d` is rendered by `fmtD`.
* Go's `int` is taken to be 64 bits wide (as on amd64 and arm64); `coord1+d1` is `addInt`,
  which wraps as the language specification prescribes for signed integers.
* `scheduled` is the pair of nested `for` loops at the end of `download`, in the order in which
  they call `go download(...)`.
* A run of the program is a sequence of atomic steps of the live `download` goroutines
  (`downloadStep`), chosen by an arbitrary schedule (`run`).  The two critical sections
  (`shouldTry`, `found`), the `os.Stat` test, the acquisition of a permit from `limit`, the
  fetch-and-store block and the final loop are separate steps, so every interleaving of the
  critical sections is a schedule.
* `renderTable` is the loop of `main` that writes the `<table>` rows.

Logging (`log.Printf`, `v`) and the `status` reporter do not touch the state and are left out.
The `sync.WaitGroup` counter equals the number of live `download` goroutines, so `wg.Wait()`
returns exactly in the states whose list of visits is empty.
-/

set_option maxRecDepth 100000

namespace Clickdrag

/-! ## Coordinates and names -/

/-- The four arguments of `download` and `name`. -/
structure Coord where
  coord1 : Int
  dim1 : String
  coord2 : Int
  dim2 : String
deriving DecidableEq

/-- Smallest value of a 64-bit `int`. -/
def minInt : Int := -9223372036854775808

/-- Largest value of a 64-bit `int`. -/
def maxInt : Int := 9223372036854775807

/-- Reduction of a mathematical integer to the 64-bit two's complement range. -/
def wrapInt (x : Int) : Int :=
  (x + 9223372036854775808) % 18446744073709551616 - 9223372036854775808

/-- Go's `a + b` on `int`. -/
def addInt (a b : Int) : Int := wrapInt (a + b)

/-- The verb `%d` of `fmt` on an `int`. -/
def fmtD (x : Int) : String :=
  match x with
  | Int.ofNat n => Nat.repr n
  | Int.negSucc n => "-" ++ Nat.repr (n + 1)

/-- `name` of the source: `fmt.Sprintf("%d%s%d%s.png", coord1, dim1, coord2, dim2)`. -/
def name (coord1 : Int) (dim1 : String) (coord2 : Int) (dim2 : String) : String :=
  fmtD coord1 ++ dim1 ++ fmtD coord2 ++ dim2 ++ ".png"

/-- The name of a coordinate. -/
def Coord.image (c : Coord) : String := name c.coord1 c.dim1 c.coord2 c.dim2

/-- The literal `[]int{-2, -1, 0, 1, 2}` both loops of `download` range over. -/
def offsets : List Int := [-2, -1, 0, 1, 2]

/-- The calls `go download(c1, dim1, c2, dim2)` made by the nested loops at the end of
`download`, in the order in which they are made.  `acc` is the list of calls made so far;
`continue` leaves it unchanged. -/
def scheduled (coord1 : Int) (dim1 : String) (coord2 : Int) (dim2 : String) : List Coord :=
  offsets.foldl (fun acc d1 =>
    offsets.foldl (fun acc d2 =>
      if d1 = 0 ∧ d2 = 0 then acc
      else
        let c1 := addInt coord1 d1
        let c2 := addInt coord2 d2
        if c1 < 1 ∨ c2 < 1 then acc
        else acc ++ [Coord.mk c1 dim1 c2 dim2]) acc) []

/-- The visits scheduled from a coordinate. -/
def neighbors (c : Coord) : List Coord := scheduled c.coord1 c.dim1 c.coord2 c.dim2

/-- The neighbour list as the specification words it: the offsets `(d1, d2)` of
`{-2,..,2} x {-2,..,2}` in row-major order, without `(0, 0)` and without the results
below 1, over the mathematical integers. -/
def neighborsSpec (m : Int) (ns : String) (n : Int) (ew : String) : List Coord :=
  ((List.product offsets offsets).filter
      (fun d => decide (d ≠ (0, 0) ∧ 1 ≤ m + d.1 ∧ 1 ≤ n + d.2))).map
    (fun d => Coord.mk (m + d.1) ns (n + d.2) ew)

/-- A coordinate of the data model: positive magnitudes, labels `n`/`s` and `e`/`w`. -/
def Valid (c : Coord) : Prop :=
  1 ≤ c.coord1 ∧ 1 ≤ c.coord2 ∧ (c.dim1 = "n" ∨ c.dim1 = "s") ∧ (c.dim2 = "e" ∨ c.dim2 = "w")

instance instDecidableValid (c : Coord) : Decidable (Valid c) :=
  inferInstanceAs (Decidable
    (1 ≤ c.coord1 ∧ 1 ≤ c.coord2 ∧ (c.dim1 = "n" ∨ c.dim1 = "s") ∧ (c.dim2 = "e" ∨ c.dim2 = "w")))

/-- The inner loop of `download` reaches `go download` for offset `d2` in row `d1`. -/
def keeps (coord1 coord2 d1 d2 : Int) : Prop :=
  ¬ (d1 = 0 ∧ d2 = 0) ∧ ¬ (addInt coord1 d1 < 1 ∨ addInt coord2 d2 < 1)

instance instDecidableKeeps (coord1 coord2 d1 d2 : Int) : Decidable (keeps coord1 coord2 d1 d2) :=
  inferInstanceAs (Decidable
    (¬ (d1 = 0 ∧ d2 = 0) ∧ ¬ (addInt coord1 d1 < 1 ∨ addInt coord2 d2 < 1)))

/-- Numeric value of a decimal digit character. -/
def digitVal (c : Char) : Nat := c.toNat - 48

/-- Numeric value of a string of decimal digits, most significant first. -/
def digitsVal (l : List Char) : Nat := l.foldl (fun a c => 10 * a + digitVal c) 0

/-! ## The crawl -/

/-- What `http.Get` gives for a tile: a transport error, or a response with a status code
and a body. -/
inductive Resp where
  | transportErr : Resp
  | status : Nat → List Nat → Resp

/-- Everything outside the program that a run depends on: the `-local` flag, the server, and
which `os.Create` and `io.Copy` calls fail (`copyErr` gives the number of bytes written
before the failure). -/
structure Env where
  isLocal : Bool
  get : String → Resp
  createOk : String → Bool
  copyErr : String → Option Nat

/-- The output directory: the contents of the file of each name, when there is one. -/
abbrev Disk := String → Option (List Nat)

/-- Where a `download` goroutine stands.
* `start`: before `shouldTry(image)`;
* `checked`: `shouldTry` returned true, before `os.Stat(path)`;
* `waiting`: neither on disk nor `-local`, before `<-limit`;
* `fetching`: holds a permit, before `http.Get`;
* `confirmed held`: before `found(image)` (`held`: it holds a permit);
* `spawning held`: before the loops that schedule the neighbours. -/
inductive PC where
  | start : PC
  | checked : PC
  | waiting : PC
  | fetching : PC
  | confirmed : Bool → PC
  | spawning : Bool → PC
deriving DecidableEq

/-- A live `download` goroutine: its arguments and where it stands. -/
structure Visit where
  c : Coord
  pc : PC
deriving DecidableEq

/-- The state of a run: the live goroutines, the two maps of `fetched` (as the sets of keys
mapped to true), the output directory, the log of the `http.Get` calls made so far and the
number of permits in `limit`. -/
structure World where
  tasks : List Visit
  tried : Finset String
  found : Finset String
  disk : Disk
  requests : List String
  permits : Nat

/-- The closure `shouldTry` of `download`: the result and the new `fetched.tried`. -/
def shouldTry (tried : Finset String) (image : String) : Bool × Finset String :=
  if image ∈ tried then (false, tried) else (true, insert image tried)

/-- The closure `found` of `download`: the new `fetched.found`. -/
def found (fnd : Finset String) (image : String) : Finset String := insert image fnd

/-- A file written at `path`. -/
def writeFile (disk : Disk) (path : String) (bytes : List Nat) : Disk :=
  fun p => if p = path then some bytes else disk p

/-- One atomic step of the goroutine `t`, the other live goroutines being `pre` and `post`.
A goroutine that returns leaves the list; the deferred `limit <- true` runs when a
goroutine that took a permit returns.  The block from `http.Get` to `io.Copy` is one step:
the only file it touches is the one named `image`, and `shouldTry(image)` lets one goroutine
at most come that far. -/
def downloadStep (env : Env) (s : World) (pre : List Visit) (t : Visit) (post : List Visit) :
    World :=
  let image := t.c.image
  match t.pc with
  | PC.start =>
    if (shouldTry s.tried image).1 = false then { s with tasks := pre ++ post }
    else { s with tried := (shouldTry s.tried image).2,
                  tasks := pre ++ { t with pc := PC.checked } :: post }
  | PC.checked =>
    if (s.disk image).isSome then
      { s with tasks := pre ++ { t with pc := PC.confirmed false } :: post }
    else if env.isLocal then { s with tasks := pre ++ post }
    else { s with tasks := pre ++ { t with pc := PC.waiting } :: post }
  | PC.waiting =>
    if s.permits = 0 then { s with tasks := pre ++ t :: post }
    else { s with permits := s.permits - 1, tasks := pre ++ { t with pc := PC.fetching } :: post }
  | PC.fetching =>
    match env.get image with
    | Resp.transportErr =>
      { s with requests := s.requests ++ [image], permits := s.permits + 1, tasks := pre ++ post }
    | Resp.status code body =>
      if code / 100 ≠ 2 then
        { s with requests := s.requests ++ [image], permits := s.permits + 1,
                 tasks := pre ++ post }
      else if env.createOk image = false then
        { s with requests := s.requests ++ [image], permits := s.permits + 1,
                 tasks := pre ++ post }
      else
        match env.copyErr image with
        | some k =>
          { s with requests := s.requests ++ [image],
                   disk := writeFile s.disk image (body.take k),
                   permits := s.permits + 1, tasks := pre ++ post }
        | none =>
          { s with requests := s.requests ++ [image],
                   disk := writeFile s.disk image body,
                   tasks := pre ++ { t with pc := PC.confirmed true } :: post }
  | PC.confirmed held =>
    { s with found := found s.found image,
             tasks := pre ++ { t with pc := PC.spawning held } :: post }
  | PC.spawning held =>
    { s with permits := if held then s.permits + 1 else s.permits,
             tasks := pre ++ post ++ (neighbors t.c).map (fun c => Visit.mk c PC.start) }

/-- The scheduler lets the `i`-th live goroutine take its next step (nothing happens when
there is no such goroutine). -/
def stepAt (env : Env) (s : World) (i : Nat) : World :=
  match s.tasks.drop i with
  | [] => s
  | t :: post => downloadStep env s (s.tasks.take i) t post

/-- The state after the steps chosen by the schedule `sched`. -/
def run (env : Env) (s : World) (sched : List Nat) : World := sched.foldl (stepAt env) s

/-- The state in which `main` has started one `download` per seed: both maps empty, ten
permits in `limit`. -/
def init (disk0 : Disk) (seeds : List Coord) : World :=
  { tasks := seeds.map (fun c => Visit.mk c PC.start), tried := ∅, found := ∅, disk := disk0,
    requests := [], permits := 10 }

/-- `wg.Wait()` has returned: no `download` goroutine is live. -/
def Complete (s : World) : Prop := s.tasks = []

instance instDecidableComplete (s : World) : Decidable (Complete s) :=
  inferInstanceAs (Decidable (s.tasks = []))

/-- The seeds of `main`, in the order of its `go download(...)` statements. -/
def mainSeeds : List Coord :=
  [⟨1, "n", 1, "e"⟩, ⟨1, "n", 1, "w"⟩, ⟨3, "s", 7, "e"⟩, ⟨15, "s", 1, "w"⟩,
   ⟨11, "n", 11, "e"⟩, ⟨11, "n", 11, "w"⟩, ⟨11, "s", 11, "e"⟩, ⟨11, "s", 11, "e"⟩]

/-- The fetch-and-store block of `download` runs through for `image`: a 2xx response, and
neither `os.Create` nor `io.Copy` fails. -/
def fetchOk (env : Env) (image : String) : Bool :=
  match env.get image with
  | Resp.transportErr => false
  | Resp.status code _ =>
    decide (code / 100 = 2) && env.createOk image && (env.copyErr image).isNone

/-- The tile `image` exists for a run that starts with the directory `disk0`: its file is
there already, or the run is not `-local` and the fetch-and-store block runs through. -/
def tileExists (env : Env) (disk0 : Disk) (image : String) : Bool :=
  (disk0 image).isSome || (!env.isLocal && fetchOk env image)

/-- The server answers 2xx for `image`. -/
def onServer (env : Env) (image : String) : Bool :=
  match env.get image with
  | Resp.transportErr => false
  | Resp.status code _ => decide (code / 100 = 2)

/-- The coordinates reachable from a seed whose tile exists through neighbour steps between
tiles that exist. -/
inductive Reach (env : Env) (disk0 : Disk) (seeds : List Coord) : Coord → Prop where
  | seed (c : Coord) : c ∈ seeds → tileExists env disk0 c.image = true → Reach env disk0 seeds c
  | step (c d : Coord) : Reach env disk0 seeds c → d ∈ neighbors c →
      tileExists env disk0 d.image = true → Reach env disk0 seeds d

/-- The coordinates a run can come to visit: the seeds and the neighbours of the reachable
coordinates. -/
def Cand (env : Env) (disk0 : Disk) (seeds : List Coord) (c : Coord) : Prop :=
  c ∈ seeds ∨ ∃ p, Reach env disk0 seeds p ∧ c ∈ neighbors p

/-- No `os.Create` and no `io.Copy` fails. -/
def NoFileErrors (env : Env) : Prop :=
  ∀ image, env.createOk image = true ∧ env.copyErr image = none

/-- The names of the goroutines between their `shouldTry` and the end of their fetch. -/
def inflight (tasks : List Visit) : List String :=
  (tasks.filter (fun t => decide (t.pc = PC.checked ∨ t.pc = PC.waiting ∨ t.pc = PC.fetching))).map
    (fun t => t.c.image)

/-- The directory is empty. -/
def emptyDisk : Disk := fun _ => none

/-- A server that has exactly the tiles of `tiles`, each with the same four bytes, and
answers 404 for every other name; nothing fails. -/
def serverWith (tiles : List String) : Env :=
  { isLocal := false
    get := fun image => if image ∈ tiles then Resp.status 200 [137, 80, 78, 71]
                        else Resp.status 404 []
    createOk := fun _ => true
    copyErr := fun _ => none }

/-- A server that answers 200 with an empty body for `1n1e.png` and 404 for every other
name; nothing fails. -/
def emptyBodyServer : Env :=
  { isLocal := false
    get := fun image => if image = "1n1e.png" then Resp.status 200 [] else Resp.status 404 []
    createOk := fun _ => true
    copyErr := fun _ => none }

/-- A directory with one file. -/
def diskWith (path : String) (bytes : List Nat) : Disk := writeFile emptyDisk path bytes

/-- The seed `(1, n, 1, e)`. -/
def seed11 : Coord := ⟨1, "n", 1, "e"⟩

/-- The tiles of the linear chain scenario. -/
def chainTiles : List String := ["1n1e.png", "1n2e.png", "1n3e.png", "1n4e.png", "1n5e.png"]

/-- The schedule that lets the first live goroutine step, `k` times. -/
def firstAlways (k : Nat) : List Nat := List.replicate k 0

/-- A schedule for the linear chain that differs from `firstAlways`: the seed runs through,
then the sixth live goroutine steps as long as there is one, then the first. -/
def sixthFirst : List Nat := firstAlways 6 ++ List.replicate 60 5 ++ firstAlways 120

/-! ## The index table -/

/-- The verb `%q` of `fmt` on a string without characters that need escaping (a tile name
has none). -/
def fmtQ (s : String) : String := "\"" ++ s ++ "\""

/-- The closure `abs` of `main`. -/
def abs (x : Int) : Int := if x < 0 then wrapInt (-x) else x

/-- The values of `r` in `for r := 50; r >= -50; r--`, in order. -/
def rowRange : List Int := (List.range 101).map (fun (i : Nat) => (50 : Int) - (i : Int))

/-- The values of `c` in `for c := -50; c <= 50; c++`, in order. -/
def colRange : List Int := (List.range 101).map (fun (i : Nat) => (i : Int) - 50)

/-- The body of the inner loop of `main` below the `switch`: what is written to the index
(`out`) for one cell. -/
def renderCell (fnd tried : Finset String) (r : Int) (ns : String) (c : Int) (ew : String)
    (out : String) : String :=
  let out := out ++ "  <td>"
  let image := name (abs r) ns (abs c) ew
  let out :=
    if image ∈ fnd then out ++ ("<img src=" ++ fmtQ image ++ " />")
    else if image ∈ tried then out ++ ("<img src=" ++ fmtQ (name 11 ns 11 ew) ++ " />")
    else out ++ "&nbsp;"
  out ++ ("</td> <!-- " ++ fmtD r ++ " (" ++ ns ++ ") " ++ fmtD c ++ " (" ++ ew ++ ") -->\n")

/-- The inner loop of `main`; `continue` leaves the output unchanged. -/
def renderCols (fnd tried : Finset String) (r : Int) (ns : String) (out : String) : String :=
  colRange.foldl (fun out c =>
    if c < 0 then renderCell fnd tried r ns c "w" out
    else if c > 0 then renderCell fnd tried r ns c "e" out
    else out) out

/-- The body of the outer loop of `main` below the `switch`. -/
def renderRow (fnd tried : Finset String) (r : Int) (ns : String) (out : String) : String :=
  let out := out ++ ("  <tr> <!-- row " ++ fmtD r ++ " -->\n")
  let out := renderCols fnd tried r ns out
  out ++ "  </tr>\n"

/-- The outer loop of `main`; `continue` leaves the output unchanged. -/
def renderTable (fnd tried : Finset String) (out : String) : String :=
  rowRange.foldl (fun out r =>
    if r < 0 then renderRow fnd tried r "s" out
    else if r > 0 then renderRow fnd tried r "n" out
    else out) out

/-- The text of `index.html`: the boilerplate, the table rows and the deferred closing
lines, last deferred first. -/
def renderIndex (fnd tried : Finset String) : String :=
  let out := "<html><head>\n" ++ "<title>clickdrag</title>\n"
    ++ "<style>*\x7bmargin:0;padding:0;border-collapse:collapse\x7d</style>\n"
    ++ "</head><body>\n" ++ "<table>\n"
  let out := renderTable fnd tried out
  out ++ "</table>\n" ++ "</body>\n" ++ "</html>\n"

/-- The label of a row: `n` above the origin, `s` below. -/
def rowLabel (r : Int) : String := if r > 0 then "n" else "s"

/-- The label of a column: `e` right of the origin, `w` left of it. -/
def colLabel (c : Int) : String := if c > 0 then "e" else "w"

/-- The text of one cell of the table, as a function of the sets: an image of the tile when
it was found, an image of the placeholder of the quadrant when it was only tried, a
non-breaking space otherwise; then the closing tag and a comment. -/
def cellText (fnd tried : Finset String) (r c : Int) : String :=
  "  <td>" ++
    ((if name (r.natAbs : Int) (rowLabel r) (c.natAbs : Int) (colLabel c) ∈ fnd then
        "<img src=" ++ fmtQ (name (r.natAbs : Int) (rowLabel r) (c.natAbs : Int) (colLabel c)) ++ " />"
      else if name (r.natAbs : Int) (rowLabel r) (c.natAbs : Int) (colLabel c) ∈ tried then
        "<img src=" ++ fmtQ (name 11 (rowLabel r) 11 (colLabel c)) ++ " />"
      else "&nbsp;") ++
    ("</td> <!-- " ++ fmtD r ++ " (" ++ rowLabel r ++ ") " ++ fmtD c ++ " (" ++ colLabel c
      ++ ") -->\n"))

/-- The text of one row of the table: the opening line, the cells of the columns other than
0 from -50 to 50, the closing line. -/
def rowText (fnd tried : Finset String) (r : Int) : String :=
  "  <tr> <!-- row " ++ fmtD r ++ " -->\n"
    ++ ((colRange.filter (fun c => decide (c ≠ 0))).map (cellText fnd tried r)).foldr
        (fun a b => a ++ b) ""
    ++ "  </tr>\n"

/-! ## The paths through one step, and the invariants of a run -/

/-- The paths through one atomic step of a `download` goroutine with arguments `c` that
stands at a given point: which path is taken, and the state it leads to. -/
inductive Fired (env : Env) (s : World) (pre : List Visit) (c : Coord) (post : List Visit) :
    PC → World → Prop where
  | seen : c.image ∈ s.tried →
      Fired env s pre c post PC.start { s with tasks := pre ++ post }
  | fresh : c.image ∉ s.tried →
      Fired env s pre c post PC.start
        { s with tried := insert c.image s.tried, tasks := pre ++ Visit.mk c PC.checked :: post }
  | cached : (s.disk c.image).isSome = true →
      Fired env s pre c post PC.checked
        { s with tasks := pre ++ Visit.mk c (PC.confirmed false) :: post }
  | localSkip : (s.disk c.image).isSome = false → env.isLocal = true →
      Fired env s pre c post PC.checked { s with tasks := pre ++ post }
  | queue : (s.disk c.image).isSome = false → env.isLocal = false →
      Fired env s pre c post PC.checked { s with tasks := pre ++ Visit.mk c PC.waiting :: post }
  | blocked : s.permits = 0 →
      Fired env s pre c post PC.waiting { s with tasks := pre ++ Visit.mk c PC.waiting :: post }
  | acquire : s.permits ≠ 0 →
      Fired env s pre c post PC.waiting
        { s with permits := s.permits - 1, tasks := pre ++ Visit.mk c PC.fetching :: post }
  | fetchFail : fetchOk env c.image = false →
      Fired env s pre c post PC.fetching
        { s with requests := s.requests ++ [c.image], permits := s.permits + 1,
                 tasks := pre ++ post }
  | copyFail (code : Nat) (body : List Nat) (k : Nat) : fetchOk env c.image = false →
      env.get c.image = Resp.status code body → code / 100 = 2 → env.createOk c.image = true →
      Fired env s pre c post PC.fetching
        { s with requests := s.requests ++ [c.image],
                 disk := writeFile s.disk c.image (body.take k),
                 permits := s.permits + 1, tasks := pre ++ post }
  | fetched (code : Nat) (body : List Nat) : fetchOk env c.image = true →
      env.get c.image = Resp.status code body → code / 100 = 2 → env.createOk c.image = true →
      Fired env s pre c post PC.fetching
        { s with requests := s.requests ++ [c.image],
                 disk := writeFile s.disk c.image body,
                 tasks := pre ++ Visit.mk c (PC.confirmed true) :: post }
  | mark (held : Bool) :
      Fired env s pre c post (PC.confirmed held)
        { s with found := insert c.image s.found,
                 tasks := pre ++ Visit.mk c (PC.spawning held) :: post }
  | spawn (held : Bool) :
      Fired env s pre c post (PC.spawning held)
        { s with permits := if held then s.permits + 1 else s.permits,
                 tasks := pre ++ post ++ (neighbors c).map (fun d => Visit.mk d PC.start) }

/-- What is found was tried; a goroutine past `shouldTry` has its name in `tried`, one past
`found` has it in `found`. -/
def InvTried (s : World) : Prop :=
  s.found ⊆ s.tried
  ∧ (∀ t ∈ s.tasks, t.pc ≠ PC.start → t.c.image ∈ s.tried)
  ∧ (∀ t ∈ s.tasks, ∀ h, t.pc = PC.spawning h → t.c.image ∈ s.found)

/-- The names of the goroutines between `shouldTry` and the end of their fetch, followed by
the names requested so far, hold no name twice, and all of them are in `tried`. -/
def InvOnce (s : World) : Prop :=
  (inflight s.tasks ++ s.requests).Nodup ∧ ∀ x ∈ inflight s.tasks ++ s.requests, x ∈ s.tried

/-- A coordinate with magnitudes of at least 1 whose pair of labels is that of a seed. -/
def Labelled (seeds : List Coord) (c : Coord) : Prop :=
  1 ≤ c.coord1 ∧ 1 ≤ c.coord2 ∧ ∃ sd ∈ seeds, sd.dim1 = c.dim1 ∧ sd.dim2 = c.dim2

/-- Every live goroutine has a labelled coordinate and every tried name is the name of
one. -/
def InvLabels (seeds : List Coord) (s : World) : Prop :=
  (∀ t ∈ s.tasks, Labelled seeds t.c) ∧ ∀ x ∈ s.tried, ∃ c, Labelled seeds c ∧ x = c.image

/-- The goroutine is past its fetch: before `found(image)` or before the final loops. -/
def PC.past : PC → Bool
  | PC.confirmed _ => true
  | PC.spawning _ => true
  | _ => false

/-- The goroutine found no file and is not `-local`: before `<-limit` or before `http.Get`. -/
def PC.queued : PC → Bool
  | PC.waiting => true
  | PC.fetching => true
  | _ => false

/-- The server answers 2xx for `image` and `os.Create` succeeds, so that a fetch leaves a
file. -/
def stored (env : Env) (image : String) : Bool :=
  match env.get image with
  | Resp.transportErr => false
  | Resp.status code _ => decide (code / 100 = 2) && env.createOk image

/-- How the directory and the request log relate to the directory at the start `disk0`:
a file not requested is as it was; what was requested had no file and the run is not
`-local`; a goroutine past its fetch, and a found name, have a file, which was there at the
start or was requested. -/
def InvDisk (env : Env) (disk0 : Disk) (s : World) : Prop :=
  (∀ x, x ∉ s.requests → s.disk x = disk0 x)
  ∧ (∀ x ∈ s.requests, (disk0 x).isSome = false)
  ∧ (∀ x ∈ s.requests, env.isLocal = false)
  ∧ (∀ t ∈ s.tasks, t.pc.queued = true → (disk0 t.c.image).isSome = false)
  ∧ (∀ t ∈ s.tasks, t.pc.queued = true → env.isLocal = false)
  ∧ (∀ t ∈ s.tasks, t.pc.past = true → (s.disk t.c.image).isSome = true)
  ∧ (∀ t ∈ s.tasks, t.pc.past = true → tileExists env disk0 t.c.image = true)
  ∧ (∀ t ∈ s.tasks, t.pc.past = true → (disk0 t.c.image).isSome = false →
      t.c.image ∈ s.requests)
  ∧ (∀ x ∈ s.found, (s.disk x).isSome = true)
  ∧ (∀ x ∈ s.found, (disk0 x).isSome = false → x ∈ s.requests)
  ∧ (∀ x, (s.disk x).isSome = true → (disk0 x).isSome = false → x ∈ s.requests)
  ∧ (∀ x, (s.disk x).isSome = true → (disk0 x).isSome = false → stored env x = true)

/-- Every live goroutine visits a coordinate of the data model. -/
def InvValid (s : World) : Prop := ∀ t ∈ s.tasks, Valid t.c

/-- Nothing is visited, tried or found that the reachability relation does not account
for. -/
def InvSound (env : Env) (disk0 : Disk) (seeds : List Coord) (s : World) : Prop :=
  (∀ t ∈ s.tasks, Cand env disk0 seeds t.c)
  ∧ (∀ x ∈ s.found, ∃ c, Reach env disk0 seeds c ∧ x = c.image)
  ∧ (∀ x ∈ s.tried, ∃ c, Cand env disk0 seeds c ∧ x = c.image)

/-- The visit of `d` is accounted for: its name is in `tried`, or a goroutine for `d` is
about to call `shouldTry`. -/
def Pending (tasks : List Visit) (tried : Finset String) (d : Coord) : Prop :=
  d.image ∈ tried ∨ Visit.mk d PC.start ∈ tasks

/-- The coordinate `c`, whose name is in `tried`, is accounted for: a goroutine past
`shouldTry` is still working on it, or its tile does not exist, or it is found and the
visits of all its neighbours are accounted for. -/
def Settled (env : Env) (disk0 : Disk) (tasks : List Visit) (tried fnd : Finset String)
    (c : Coord) : Prop :=
  (∃ t ∈ tasks, t.c = c ∧ t.pc ≠ PC.start)
  ∨ tileExists env disk0 c.image = false
  ∨ (c.image ∈ fnd ∧ ∀ d ∈ neighbors c, Pending tasks tried d)

/-- Nothing that has to be visited is forgotten. -/
def InvComplete (env : Env) (disk0 : Disk) (seeds : List Coord) (s : World) : Prop :=
  (∀ c ∈ seeds, Pending s.tasks s.tried c)
  ∧ (∀ c, Valid c → c.image ∈ s.tried → Settled env disk0 s.tasks s.tried s.found c)

/-- The goroutine is past `shouldTry` and has neither given up nor called `found` yet. -/
def PC.busy : PC → Bool
  | PC.checked => true
  | PC.waiting => true
  | PC.fetching => true
  | PC.confirmed _ => true
  | _ => false

/-- A tried name is being worked on, or found, or was requested, unless the run is
`-local`. -/
def InvRequested (env : Env) (s : World) : Prop :=
  ∀ x ∈ s.tried, (∃ t ∈ s.tasks, t.c.image = x ∧ t.pc.busy = true) ∨ x ∈ s.found
    ∨ x ∈ s.requests ∨ env.isLocal = true

/-- The goroutine holds a permit of `limit`. -/
def PC.holds : PC → Bool
  | PC.fetching => true
  | PC.confirmed held => held
  | PC.spawning held => held
  | _ => false

/-- The number of live goroutines that hold a permit. -/
def holders (tasks : List Visit) : Nat := (tasks.filter (fun t => t.pc.holds)).length

/-- The ten permits are in `limit` or held by a goroutine. -/
def InvPermits (s : World) : Prop := s.permits + holders s.tasks = 10

/-- The number of steps a goroutine has left at most before it returns. -/
def pcWeight : PC → Nat
  | PC.start => 6
  | PC.checked => 5
  | PC.waiting => 4
  | PC.fetching => 3
  | PC.confirmed _ => 2
  | PC.spawning _ => 1

/-- The weight of a live goroutine: its own steps and, once it is past `shouldTry` for a
tile that exists, the steps of the at most 25 goroutines it will start. -/
def taskWeight (env : Env) (disk0 : Disk) (t : Visit) : Nat :=
  pcWeight t.pc +
    (if t.pc ≠ PC.start ∧ tileExists env disk0 t.c.image = true then 150 else 0)

/-- A bound on the number of steps that are left in a run, given a list `tiles` that holds
the name of every tile that exists. -/
def potential (env : Env) (disk0 : Disk) (tiles : List String) (s : World) : Nat :=
  (s.tasks.map (taskWeight env disk0)).sum
    + 151 * (tiles.filter (fun x => decide (x ∉ s.tried))).length

/-- A name that was requested and whose fetch-and-store block ran through has the whole body
of the response as its file. -/
def InvContent (env : Env) (s : World) : Prop :=
  ∀ x ∈ s.requests, fetchOk env x = true →
    ∃ code body, env.get x = Resp.status code body ∧ s.disk x = some body

/-! # Theorems -/

/-! ## Loops that skip and append -/

theorem foldl_skip_append {α β : Type} (p : α → Prop) [DecidablePred p] (f : α → β)
    (l : List α) (acc : List β) :
    l.foldl (fun acc x => if p x then acc else acc ++ [f x]) acc
      = acc ++ (l.filter (fun x => decide (¬ p x))).map f := by
  induction l generalizing acc with
  | nil => simp
  | cons a l ih =>
    simp only [List.foldl_cons, ih]
    by_cases h : p a <;> simp [h, List.filter_cons]

theorem foldl_append_each {α β : Type} (g : α → List β) (l : List α) (acc : List β) :
    l.foldl (fun acc x => acc ++ g x) acc = acc ++ (l.map g).flatten := by
  induction l generalizing acc with
  | nil => simp
  | cons a l ih => simp [List.foldl_cons, ih]

theorem flatten_rows_eq_product {α β γ : Type} (p : α → β → Bool) (f : α → β → γ)
    (l1 : List α) (l2 : List β) :
    (l1.map (fun a => (l2.filter (p a)).map (f a))).flatten
      = ((List.product l1 l2).filter (fun d => p d.1 d.2)).map (fun d => f d.1 d.2) := by
  induction l1 with
  | nil => simp [List.product]
  | cons a l ih =>
    have hp : List.product (a :: l) l2 = l2.map (Prod.mk a) ++ List.product l l2 := by
      simp [List.product]
    rw [hp, List.filter_append, List.map_append, ← ih]
    simp [List.filter_map, List.map_map, Function.comp_def]

/-! ## The neighbour loops -/

theorem scheduled_eq (coord1 : Int) (dim1 : String) (coord2 : Int) (dim2 : String) :
    scheduled coord1 dim1 coord2 dim2 =
      (offsets.map (fun d1 =>
        (offsets.filter (fun d2 => decide (keeps coord1 coord2 d1 d2))).map
          (fun d2 => Coord.mk (addInt coord1 d1) dim1 (addInt coord2 d2) dim2))).flatten := by
  unfold scheduled
  have inner : ∀ (d1 : Int) (acc : List Coord),
      offsets.foldl (fun acc d2 =>
        if d1 = 0 ∧ d2 = 0 then acc
        else
          let c1 := addInt coord1 d1
          let c2 := addInt coord2 d2
          if c1 < 1 ∨ c2 < 1 then acc
          else acc ++ [Coord.mk c1 dim1 c2 dim2]) acc
      = acc ++ (offsets.filter (fun d2 => decide (keeps coord1 coord2 d1 d2))).map
        (fun d2 => Coord.mk (addInt coord1 d1) dim1 (addInt coord2 d2) dim2) := by
    intro d1 acc
    have h := foldl_skip_append (fun d2 => ¬ keeps coord1 coord2 d1 d2)
      (fun d2 => Coord.mk (addInt coord1 d1) dim1 (addInt coord2 d2) dim2) offsets acc
    simp only [not_not] at h
    rw [← h]
    congr 1
    funext acc d2
    unfold keeps
    by_cases h1 : d1 = 0 ∧ d2 = 0
    · simp [h1]
    · by_cases h2 : addInt coord1 d1 < 1 ∨ addInt coord2 d2 < 1
      · simp only [h1, h2, if_false, if_true, not_true_eq_false, and_false, not_false_eq_true]
      · simp only [h1, h2, if_false, not_false_eq_true, and_self, not_true_eq_false]
  simp only [inner]
  rw [foldl_append_each]
  simp

theorem addInt_exact (m d : Int) (h1 : minInt + 2 ≤ m) (h2 : m ≤ maxInt - 2)
    (h3 : -2 ≤ d) (h4 : d ≤ 2) : addInt m d = m + d := by
  unfold addInt wrapInt
  unfold minInt at h1
  unfold maxInt at h2
  omega

theorem mem_offsets_bounds (d : Int) (hd : d ∈ offsets) : -2 ≤ d ∧ d ≤ 2 := by
  simp [offsets] at hd
  omega

theorem scheduled_eq_spec (m n : Int) (ns ew : String)
    (hm1 : minInt + 2 ≤ m) (hm2 : m ≤ maxInt - 2) (hn1 : minInt + 2 ≤ n) (hn2 : n ≤ maxInt - 2) :
    scheduled m ns n ew = neighborsSpec m ns n ew := by
  rw [scheduled_eq, flatten_rows_eq_product (fun d1 d2 => decide (keeps m n d1 d2))
    (fun d1 d2 => Coord.mk (addInt m d1) ns (addInt n d2) ew)]
  unfold neighborsSpec
  have e : ∀ d : Int, d ∈ offsets → addInt m d = m + d ∧ addInt n d = n + d := by
    intro d hd
    have hb := mem_offsets_bounds d hd
    exact ⟨addInt_exact m d hm1 hm2 hb.1 hb.2, addInt_exact n d hn1 hn2 hb.1 hb.2⟩
  have hmem : ∀ d : Int × Int, d ∈ List.product offsets offsets →
      d.1 ∈ offsets ∧ d.2 ∈ offsets := by
    intro d hd
    exact List.mem_product.mp hd
  have hf : (List.product offsets offsets).filter (fun d => decide (keeps m n d.1 d.2))
      = (List.product offsets offsets).filter
          (fun d => decide (d ≠ (0, 0) ∧ 1 ≤ m + d.1 ∧ 1 ≤ n + d.2)) := by
    apply List.filter_congr
    intro d hd
    obtain ⟨h1, h2⟩ := hmem d hd
    unfold keeps
    have ea := (e d.1 h1).1
    have eb := (e d.2 h2).2
    obtain ⟨a, b⟩ := d
    simp only [ne_eq, Prod.mk.injEq, not_or, not_lt, decide_eq_decide] at ea eb ⊢
    rw [ea, eb]
  rw [hf]
  apply List.map_congr_left
  intro d hd
  have hd2 := hmem d (List.mem_of_mem_filter hd)
  rw [(e d.1 hd2.1).1, (e d.2 hd2.2).2]

theorem mem_scheduled (coord1 : Int) (dim1 : String) (coord2 : Int) (dim2 : String) (c : Coord)
    (h : c ∈ scheduled coord1 dim1 coord2 dim2) :
    1 ≤ c.coord1 ∧ 1 ≤ c.coord2 ∧ c.dim1 = dim1 ∧ c.dim2 = dim2 := by
  rw [scheduled_eq] at h
  simp only [List.mem_flatten, List.mem_map, List.mem_filter, decide_eq_true_eq] at h
  obtain ⟨l, ⟨d1, _, rfl⟩, hc⟩ := h
  simp only [List.mem_map, List.mem_filter, decide_eq_true_eq] at hc
  obtain ⟨d2, ⟨_, hk⟩, rfl⟩ := hc
  unfold keeps at hk
  simp only [not_or, not_lt] at hk
  exact ⟨hk.2.1, hk.2.2, rfl, rfl⟩

theorem neighbors_valid (c d : Coord) (hc : Valid c) (hd : d ∈ neighbors c) : Valid d := by
  have h := mem_scheduled _ _ _ _ d hd
  unfold Valid at hc ⊢
  rw [h.2.2.1, h.2.2.2]
  exact ⟨h.1, h.2.1, hc.2.2.1, hc.2.2.2⟩

theorem spec_length_interior (m n : Int) (ns ew : String) (hm : 3 ≤ m) (hn : 3 ≤ n) :
    (neighborsSpec m ns n ew).length = 24 := by
  unfold neighborsSpec
  rw [List.length_map]
  have hf : (List.product offsets offsets).filter
        (fun d => decide (d ≠ (0, 0) ∧ 1 ≤ m + d.1 ∧ 1 ≤ n + d.2))
      = (List.product offsets offsets).filter (fun d => decide (d ≠ (0, 0))) := by
    apply List.filter_congr
    intro d hd
    obtain ⟨h1, h2⟩ := List.mem_product.mp hd
    have b1 := mem_offsets_bounds d.1 h1
    have b2 := mem_offsets_bounds d.2 h2
    have : 1 ≤ m + d.1 ∧ 1 ≤ n + d.2 := by omega
    simp [this]
  rw [hf]
  decide

theorem spec_first_row (n : Int) (ns ew : String) (c : Coord)
    (h : c ∈ neighborsSpec 1 ns n ew) : c.coord1 = 1 ∨ c.coord1 = 2 ∨ c.coord1 = 3 := by
  unfold neighborsSpec at h
  simp only [List.mem_map, List.mem_filter, decide_eq_true_eq] at h
  obtain ⟨d, ⟨hd, _, h1, _⟩, rfl⟩ := h
  have b := mem_offsets_bounds d.1 (List.mem_product.mp hd).1
  simp only
  omega

/-! ## Decimal rendering and names -/

theorem digitChar_isDigit (k : Nat) (h : k < 10) : (Nat.digitChar k).isDigit = true := by
  interval_cases k <;> decide

theorem digitVal_digitChar (k : Nat) (h : k < 10) : digitVal (Nat.digitChar k) = k := by
  interval_cases k <;> decide

theorem toDigitsCore_append (fuel n : Nat) (ds : List Char) :
    Nat.toDigitsCore 10 fuel n ds = Nat.toDigitsCore 10 fuel n [] ++ ds := by
  induction fuel generalizing n ds with
  | zero => simp [Nat.toDigitsCore]
  | succ f ih =>
    simp only [Nat.toDigitsCore]
    split
    · simp
    · rw [ih (n / 10) (Nat.digitChar (n % 10) :: ds), ih (n / 10) [Nat.digitChar (n % 10)]]
      simp

theorem digitsVal_snoc (l : List Char) (c : Char) :
    digitsVal (l ++ [c]) = 10 * digitsVal l + digitVal c := by
  simp [digitsVal, List.foldl_append]

theorem digitsVal_toDigitsCore (fuel n : Nat) (h : n < fuel) :
    digitsVal (Nat.toDigitsCore 10 fuel n []) = n := by
  induction fuel generalizing n with
  | zero => omega
  | succ f ih =>
    simp only [Nat.toDigitsCore]
    split
    · have hv := digitVal_digitChar (n % 10) (Nat.mod_lt _ (by decide))
      simp only [digitsVal, List.foldl, hv]
      omega
    · rw [toDigitsCore_append, digitsVal_snoc, ih (n / 10) (by omega),
        digitVal_digitChar (n % 10) (Nat.mod_lt _ (by decide))]
      omega

theorem toDigitsCore_isDigit (fuel n : Nat) :
    ∀ c ∈ Nat.toDigitsCore 10 fuel n [], c.isDigit = true := by
  induction fuel generalizing n with
  | zero => simp [Nat.toDigitsCore]
  | succ f ih =>
    simp only [Nat.toDigitsCore]
    split
    · intro c hc
      simp at hc
      rw [hc]
      exact digitChar_isDigit _ (Nat.mod_lt _ (by decide))
    · intro c hc
      rw [toDigitsCore_append] at hc
      simp at hc
      rcases hc with hc | hc
      · exact ih _ c hc
      · rw [hc]
        exact digitChar_isDigit _ (Nat.mod_lt _ (by decide))

theorem repr_data_isDigit (n : Nat) : ∀ c ∈ (Nat.repr n).data, c.isDigit = true := by
  intro c hc
  simp [Nat.repr, Nat.toDigits, List.asString] at hc
  exact toDigitsCore_isDigit _ _ c hc

theorem repr_data_inj (a b : Nat) (h : (Nat.repr a).data = (Nat.repr b).data) : a = b := by
  simp only [Nat.repr, Nat.toDigits, List.asString] at h
  have ha := digitsVal_toDigitsCore (a + 1) a (by omega)
  have hb := digitsVal_toDigitsCore (b + 1) b (by omega)
  rw [h] at ha
  omega

theorem split_at_nondigit (l1 l2 r1 r2 : List Char) (x y : Char)
    (h1 : ∀ c ∈ l1, c.isDigit = true) (h2 : ∀ c ∈ l2, c.isDigit = true)
    (hx : x.isDigit = false) (hy : y.isDigit = false)
    (h : l1 ++ x :: r1 = l2 ++ y :: r2) : l1 = l2 ∧ x = y ∧ r1 = r2 := by
  induction l1 generalizing l2 with
  | nil =>
    cases l2 with
    | nil => simpa using h
    | cons b l2 =>
      simp at h
      have := h2 b (by simp)
      rw [← h.1] at this
      simp [hx] at this
  | cons a l1 ih =>
    cases l2 with
    | nil =>
      simp at h
      have := h1 a (by simp)
      rw [h.1] at this
      simp [hy] at this
    | cons b l2 =>
      simp at h
      obtain ⟨hab, ht⟩ := h
      have := ih l2 (fun c hc => h1 c (by simp [hc])) (fun c hc => h2 c (by simp [hc])) ht
      simp [hab, this]

theorem fmtD_pos (m : Int) (h : 1 ≤ m) : fmtD m = Nat.repr m.toNat := by
  cases m with
  | ofNat k => simp [fmtD]
  | negSucc k =>
    have := Int.negSucc_lt_zero k
    omega

theorem name_data (m : Int) (ns : String) (n : Int) (ew : String) :
    (name m ns n ew).data
      = (fmtD m).data ++ (ns.data ++ ((fmtD n).data ++ (ew.data ++ ".png".data))) := by
  simp [name, String.data_append]

theorem label_data (a : String) (ha : a = "n" ∨ a = "s" ∨ a = "e" ∨ a = "w") :
    ∃ x : Char, a.data = [x] ∧ x.isDigit = false := by
  rcases ha with h | h | h | h <;> subst h <;> exact ⟨_, rfl, by decide⟩

theorem name_inj (m n m' n' : Int) (ns ew ns' ew' : String)
    (hm : 1 ≤ m) (hn : 1 ≤ n) (hm' : 1 ≤ m') (hn' : 1 ≤ n')
    (hns : ns = "n" ∨ ns = "s") (hew : ew = "e" ∨ ew = "w")
    (hns' : ns' = "n" ∨ ns' = "s") (hew' : ew' = "e" ∨ ew' = "w")
    (h : name m ns n ew = name m' ns' n' ew') :
    m = m' ∧ ns = ns' ∧ n = n' ∧ ew = ew' := by
  have hd := congrArg String.data h
  rw [name_data, name_data, fmtD_pos m hm, fmtD_pos n hn, fmtD_pos m' hm', fmtD_pos n' hn'] at hd
  obtain ⟨x1, hx1, hx1d⟩ := label_data ns (by tauto)
  obtain ⟨x2, hx2, hx2d⟩ := label_data ns' (by tauto)
  obtain ⟨y1, hy1, hy1d⟩ := label_data ew (by tauto)
  obtain ⟨y2, hy2, hy2d⟩ := label_data ew' (by tauto)
  rw [hx1, hx2, hy1, hy2] at hd
  simp only [List.singleton_append] at hd
  obtain ⟨e1, e2, e3⟩ := split_at_nondigit _ _ _ _ x1 x2 (repr_data_isDigit _)
    (repr_data_isDigit _) hx1d hx2d hd
  obtain ⟨e4, e5, _⟩ := split_at_nondigit _ _ _ _ y1 y2 (repr_data_isDigit _)
    (repr_data_isDigit _) hy1d hy2d e3
  have a1 := repr_data_inj _ _ e1
  have a2 := repr_data_inj _ _ e4
  refine ⟨by omega, ?_, by omega, ?_⟩
  · apply String.ext
    rw [hx1, hx2, e2]
  · apply String.ext
    rw [hy1, hy2, e5]

theorem image_inj (c d : Coord) (hc : Valid c) (hd : Valid d) (h : c.image = d.image) :
    c = d := by
  obtain ⟨a1, a2, a3, a4⟩ := hc
  obtain ⟨b1, b2, b3, b4⟩ := hd
  have := name_inj _ _ _ _ _ _ _ _ a1 a2 b1 b2 a3 a4 b3 b4 h
  cases c
  cases d
  simp only [Coord.mk.injEq]
  simp only at this
  tauto

/-! ## Steps and runs -/

theorem downloadStep_fired (env : Env) (s : World) (pre : List Visit) (c : Coord) (pc : PC)
    (post : List Visit) :
    Fired env s pre c post pc (downloadStep env s pre (Visit.mk c pc) post) := by
  cases pc with
  | start =>
    by_cases h : c.image ∈ s.tried
    · simp only [downloadStep, shouldTry, h, if_true]
      exact Fired.seen h
    · simp only [downloadStep, shouldTry, h, if_false]
      exact Fired.fresh h
  | checked =>
    cases hd : (s.disk c.image).isSome
    · cases hl : env.isLocal
      · simp [downloadStep, hd, hl]
        exact Fired.queue hd hl
      · simp [downloadStep, hd, hl]
        exact Fired.localSkip hd hl
    · simp only [downloadStep, hd, if_true]
      exact Fired.cached hd
  | waiting =>
    by_cases h : s.permits = 0
    · simp only [downloadStep, if_pos h]
      exact Fired.blocked h
    · simp only [downloadStep, if_neg h]
      exact Fired.acquire h
  | fetching =>
    cases hg : env.get c.image with
    | transportErr =>
      simp only [downloadStep, hg]
      exact Fired.fetchFail (by simp [fetchOk, hg])
    | status code body =>
      by_cases h2 : code / 100 = 2
      · cases hc : env.createOk c.image
        · simp only [downloadStep, hg, h2, hc, ne_eq, not_true_eq_false, if_false, if_true]
          exact Fired.fetchFail (by simp [fetchOk, hg, hc])
        · cases hk : env.copyErr c.image with
          | none =>
            simp [downloadStep, hg, h2, hc, hk]
            exact Fired.fetched code body (by simp [fetchOk, hg, hc, hk, h2]) hg h2 hc
          | some k =>
            simp [downloadStep, hg, h2, hc, hk]
            exact Fired.copyFail code body k (by simp [fetchOk, hg, hc, hk, h2]) hg h2 hc
      · simp only [downloadStep, hg, h2, ne_eq, not_false_eq_true, if_true]
        exact Fired.fetchFail (by simp [fetchOk, hg, h2])
  | confirmed held =>
    simp only [downloadStep, found]
    exact Fired.mark held
  | spawning held =>
    simp only [downloadStep]
    exact Fired.spawn held

theorem stepAt_cases (env : Env) (s : World) (i : Nat) :
    stepAt env s i = s ∨
      ∃ pre c pc post, s.tasks = pre ++ Visit.mk c pc :: post ∧
        Fired env s pre c post pc (stepAt env s i) := by
  unfold stepAt
  cases h : s.tasks.drop i with
  | nil => exact Or.inl rfl
  | cons t post =>
    right
    obtain ⟨c, pc⟩ := t
    refine ⟨s.tasks.take i, c, pc, post, ?_, downloadStep_fired env s _ c pc post⟩
    rw [← h, List.take_append_drop]

/-- A property of the states that holds at the start and is kept by every step of a
goroutine holds after every schedule. -/
theorem run_invariant (env : Env) (P : World → Prop)
    (hstep : ∀ s pre c pc post s', P s → s.tasks = pre ++ Visit.mk c pc :: post →
      Fired env s pre c post pc s' → P s') :
    ∀ (sched : List Nat) (s : World), P s → P (run env s sched) := by
  intro sched
  induction sched with
  | nil => intro s h; exact h
  | cons i rest ih =>
    intro s h
    have : run env s (i :: rest) = run env (stepAt env s i) rest := rfl
    rw [this]
    apply ih
    rcases stepAt_cases env s i with h0 | ⟨pre, c, pc, post, ht, hf⟩
    · rw [h0]; exact h
    · exact hstep s pre c pc post _ h ht hf

theorem run_append (env : Env) (s : World) (a b : List Nat) :
    run env s (a ++ b) = run env (run env s a) b := by
  simp [run, List.foldl_append]

theorem invTried_step (env : Env) (s : World) (pre : List Visit) (c : Coord) (pc : PC)
    (post : List Visit) (s' : World) (h : InvTried s) (ht : s.tasks = pre ++ Visit.mk c pc :: post)
    (hf : Fired env s pre c post pc s') : InvTried s' := by
  obtain ⟨h1, h2, h3⟩ := h
  rw [ht] at h2 h3
  simp only [List.forall_mem_append, List.forall_mem_cons] at h2 h3
  obtain ⟨h2a, h2b, h2c⟩ := h2
  obtain ⟨h3a, h3b, h3c⟩ := h3
  cases hf <;>
    simp only [InvTried, List.forall_mem_append, List.forall_mem_cons, List.forall_mem_map,
      Finset.subset_iff, Finset.mem_insert] <;>
    aesop

/-! ## Sets and files only grow -/

theorem fired_mono (env : Env) (s : World) (pre : List Visit) (c : Coord) (pc : PC)
    (post : List Visit) (s' : World) (hf : Fired env s pre c post pc s') :
    s.tried ⊆ s'.tried ∧ s.found ⊆ s'.found ∧ (∀ x, (s.disk x).isSome = true → (s'.disk x).isSome = true)
      ∧ (∀ x ∈ s.requests, x ∈ s'.requests) := by
  cases hf <;> simp [Finset.subset_iff, writeFile] <;> aesop

theorem run_mono (env : Env) (sched : List Nat) (s : World) :
    s.tried ⊆ (run env s sched).tried ∧ s.found ⊆ (run env s sched).found
      ∧ (∀ x, (s.disk x).isSome = true → ((run env s sched).disk x).isSome = true)
      ∧ (∀ x ∈ s.requests, x ∈ (run env s sched).requests) := by
  apply run_invariant env (fun s' => s.tried ⊆ s'.tried ∧ s.found ⊆ s'.found
      ∧ (∀ x, (s.disk x).isSome = true → (s'.disk x).isSome = true)
      ∧ (∀ x ∈ s.requests, x ∈ s'.requests))
  · intro s1 pre c pc post s2 h _ hf
    obtain ⟨a1, a2, a3, a4⟩ := fired_mono env s1 pre c pc post s2 hf
    exact ⟨h.1.trans a1, h.2.1.trans a2, fun x hx => a3 x (h.2.2.1 x hx),
      fun x hx => a4 x (h.2.2.2 x hx)⟩
  · exact ⟨Finset.Subset.refl _, Finset.Subset.refl _, fun _ h => h, fun _ h => h⟩

/-! ## Goroutines in flight -/

theorem inflight_append (a b : List Visit) : inflight (a ++ b) = inflight a ++ inflight b := by
  simp [inflight]

theorem inflight_cons (t : Visit) (l : List Visit) :
    inflight (t :: l) =
      (if t.pc = PC.checked ∨ t.pc = PC.waiting ∨ t.pc = PC.fetching then [t.c.image] else [])
        ++ inflight l := by
  by_cases h : t.pc = PC.checked ∨ t.pc = PC.waiting ∨ t.pc = PC.fetching
  · simp [inflight, List.filter_cons, h]
  · simp [inflight, List.filter_cons, h]

theorem inflight_start (l : List Coord) :
    inflight (l.map (fun d => Visit.mk d PC.start)) = [] := by
  induction l with
  | nil => rfl
  | cons a l ih =>
    rw [List.map_cons, inflight_cons, ih]
    simp

theorem invOnce_step (env : Env) (s : World) (pre : List Visit) (c : Coord) (pc : PC)
    (post : List Visit) (s' : World) (h : InvOnce s) (ht : s.tasks = pre ++ Visit.mk c pc :: post)
    (hf : Fired env s pre c post pc s') : InvOnce s' := by
  obtain ⟨h1, h2⟩ := h
  rw [ht] at h1 h2
  cases hf <;>
    simp only [InvOnce, inflight_append, inflight_cons, inflight_start, List.nodup_append,
      List.nodup_cons, List.mem_append, List.mem_cons, Finset.mem_insert, List.Disjoint,
      if_true, if_false, true_or, or_true, reduceCtorEq, or_false, false_or,
      List.nil_append, List.append_nil, List.singleton_append, List.not_mem_nil,
      List.nodup_nil] at h1 h2 ⊢ <;>
    aesop

/-! ## Labels -/

theorem labelled_neighbors (seeds : List Coord) (c d : Coord) (hc : Labelled seeds c)
    (hd : d ∈ neighbors c) : Labelled seeds d := by
  have h := mem_scheduled _ _ _ _ d hd
  obtain ⟨_, _, sd, hsd, e1, e2⟩ := hc
  exact ⟨h.1, h.2.1, sd, hsd, by rw [e1, h.2.2.1], by rw [e2, h.2.2.2]⟩

theorem invLabels_step (env : Env) (seeds : List Coord) (s : World) (pre : List Visit)
    (c : Coord) (pc : PC) (post : List Visit) (s' : World) (h : InvLabels seeds s)
    (ht : s.tasks = pre ++ Visit.mk c pc :: post)
    (hf : Fired env s pre c post pc s') : InvLabels seeds s' := by
  obtain ⟨h1, h2⟩ := h
  rw [ht] at h1
  simp only [List.forall_mem_append, List.forall_mem_cons] at h1
  obtain ⟨h1a, h1b, h1c⟩ := h1
  have hn := labelled_neighbors seeds c
  cases hf <;>
    simp only [InvLabels, List.forall_mem_append, List.forall_mem_cons, List.forall_mem_map,
      Finset.mem_insert] <;>
    aesop

/-! ## The directory -/

theorem inflight_not_requested (s : World) (h : InvOnce s) (t : Visit) (ht : t ∈ s.tasks)
    (hp : t.pc = PC.checked ∨ t.pc = PC.waiting ∨ t.pc = PC.fetching) :
    t.c.image ∉ s.requests := by
  have hm : t.c.image ∈ inflight s.tasks := by
    unfold inflight
    simp only [List.mem_map, List.mem_filter, decide_eq_true_eq]
    exact ⟨t, ⟨ht, hp⟩, rfl⟩
  have := (List.nodup_append.mp h.1).2.2
  exact fun hr => this hm hr

@[simp] theorem queued_start : PC.start.queued = false := rfl
@[simp] theorem queued_checked : PC.checked.queued = false := rfl
@[simp] theorem queued_waiting : PC.waiting.queued = true := rfl
@[simp] theorem queued_fetching : PC.fetching.queued = true := rfl
@[simp] theorem queued_confirmed (h : Bool) : (PC.confirmed h).queued = false := rfl
@[simp] theorem queued_spawning (h : Bool) : (PC.spawning h).queued = false := rfl
@[simp] theorem past_start : PC.start.past = false := rfl
@[simp] theorem past_checked : PC.checked.past = false := rfl
@[simp] theorem past_waiting : PC.waiting.past = false := rfl
@[simp] theorem past_fetching : PC.fetching.past = false := rfl
@[simp] theorem past_confirmed (h : Bool) : (PC.confirmed h).past = true := rfl
@[simp] theorem past_spawning (h : Bool) : (PC.spawning h).past = true := rfl

/-! ### What a step does to a property of every live goroutine -/

theorem tasks_drop {A B : Visit → Prop} {pre post : List Visit} {v : Visit}
    (h : ∀ t ∈ pre ++ v :: post, A t) (hm : ∀ t, A t → B t) : ∀ t ∈ pre ++ post, B t := by
  intro t ht
  apply hm
  apply h
  simp only [List.mem_append, List.mem_cons] at ht ⊢
  tauto

theorem tasks_replace {A B : Visit → Prop} {pre post : List Visit} {v : Visit} (w : Visit)
    (h : ∀ t ∈ pre ++ v :: post, A t) (hm : ∀ t, A t → B t) (hw : B w) :
    ∀ t ∈ pre ++ w :: post, B t := by
  intro t ht
  simp only [List.mem_append, List.mem_cons] at ht
  rcases ht with ht | rfl | ht
  · exact hm t (h t (by simp [ht]))
  · exact hw
  · exact hm t (h t (by simp [ht]))

theorem tasks_spawn {A B : Visit → Prop} {pre post : List Visit} {v : Visit} (l : List Coord)
    (h : ∀ t ∈ pre ++ v :: post, A t) (hm : ∀ t, A t → B t)
    (hn : ∀ d ∈ l, B (Visit.mk d PC.start)) :
    ∀ t ∈ pre ++ post ++ l.map (fun d => Visit.mk d PC.start), B t := by
  intro t ht
  simp only [List.mem_append, List.mem_map] at ht
  rcases ht with (ht | ht) | ⟨d, hd, rfl⟩
  · exact hm t (h t (by simp [ht]))
  · exact hm t (h t (by simp [ht]))
  · exact hn d hd

theorem writeFile_isSome_of (d : Disk) (p : String) (b : List Nat) (x : String)
    (h : (d x).isSome = true) : (writeFile d p b x).isSome = true := by
  unfold writeFile
  split
  · rfl
  · exact h

theorem writeFile_self (d : Disk) (p : String) (b : List Nat) :
    (writeFile d p b p).isSome = true := by
  simp [writeFile]

theorem writeFile_isSome_cases (d : Disk) (p : String) (b : List Nat) (x : String)
    (h : (writeFile d p b x).isSome = true) : x = p ∨ (d x).isSome = true := by
  unfold writeFile at h
  split at h
  · left; assumption
  · right; exact h

theorem tasks_self {A : Visit → Prop} {pre post : List Visit} {v : Visit}
    (h : ∀ t ∈ pre ++ v :: post, A t) : A v :=
  h v (by simp)

theorem invDisk_step (env : Env) (disk0 : Disk) (s : World) (pre : List Visit)
    (c : Coord) (pc : PC) (post : List Visit) (s' : World) (h : InvDisk env disk0 s)
    (ho : InvOnce s) (ht : s.tasks = pre ++ Visit.mk c pc :: post)
    (hf : Fired env s pre c post pc s') : InvDisk env disk0 s' := by
  have hnr : (pc = PC.checked ∨ pc = PC.waiting ∨ pc = PC.fetching) → c.image ∉ s.requests :=
    fun hp => inflight_not_requested s ho (Visit.mk c pc) (by rw [ht]; simp) hp
  obtain ⟨h1, h2, h3, h4, h5, h6, h7, h8, h9, h10, h11, h12⟩ := h
  have hc0 : pc = PC.checked → s.disk c.image = disk0 c.image :=
    fun hp => h1 _ (hnr (Or.inl hp))
  have hst : ∀ code body, env.get c.image = Resp.status code body → code / 100 = 2 →
      env.createOk c.image = true → stored env c.image = true := by
    intro code body hg h2 hcr
    simp [stored, hg, h2, hcr]
  rw [ht] at h4 h5 h6 h7 h8
  have s4 := tasks_self h4
  have s5 := tasks_self h5
  have s6 := tasks_self h6
  have s7 := tasks_self h7
  have s8 := tasks_self h8
  clear ho ht hnr
  refine ⟨?_, ?_, ?_, ?_, ?_, ?_, ?_, ?_, ?_, ?_, ?_, ?_⟩
  · cases hf <;> first
      | exact h1
      | (intro x hx
         simp only [List.mem_append, List.mem_singleton, not_or] at hx
         simp only [writeFile, if_neg hx.2]
         exact h1 x hx.1)
  · cases hf <;> first
      | exact h2
      | (intro x hx
         simp only [List.mem_append, List.mem_singleton] at hx
         rcases hx with hx | rfl
         · exact h2 x hx
         · exact s4 rfl)
  · cases hf <;> first
      | exact h3
      | (intro x hx
         simp only [List.mem_append, List.mem_singleton] at hx
         rcases hx with hx | rfl
         · exact h3 x hx
         · exact s5 rfl)
  · cases hf <;> first
      | exact tasks_drop h4 (fun _ a => a)
      | exact tasks_spawn _ h4 (fun _ a => a) (fun _ _ hq => (Bool.false_ne_true hq).elim)
      | exact tasks_replace _ h4 (fun _ a => a) (fun hq => (Bool.false_ne_true hq).elim)
      | exact tasks_replace _ h4 (fun _ a => a) (fun _ => s4 rfl)
      | (refine tasks_replace _ h4 (fun _ a => a) (fun _ => ?_)
         rw [← hc0 rfl]
         assumption)
  · cases hf <;> first
      | exact tasks_drop h5 (fun _ a => a)
      | exact tasks_spawn _ h5 (fun _ a => a) (fun _ _ hq => (Bool.false_ne_true hq).elim)
      | exact tasks_replace _ h5 (fun _ a => a) (fun hq => (Bool.false_ne_true hq).elim)
      | exact tasks_replace _ h5 (fun _ a => a) (fun _ => s5 rfl)
      | (refine tasks_replace _ h5 (fun _ a => a) (fun _ => ?_)
         assumption)
  · cases hf with
    | cached hd =>
      exact tasks_replace _ h6 (fun _ a => a) (fun _ => hd)
    | copyFail code body k hk hg h2 hcr =>
      exact tasks_drop h6 (fun _ a hq => writeFile_isSome_of _ _ _ _ (a hq))
    | fetched code body hk hg h2 hcr =>
      exact tasks_replace _ h6 (fun _ a hq => writeFile_isSome_of _ _ _ _ (a hq))
        (fun _ => writeFile_self _ _ _)
    | mark held => exact tasks_replace _ h6 (fun _ a => a) (fun _ => s6 rfl)
    | spawn held =>
      exact tasks_spawn _ h6 (fun _ a => a) (fun _ _ hq => (Bool.false_ne_true hq).elim)
    | seen _ => exact tasks_drop h6 (fun _ a => a)
    | localSkip _ _ => exact tasks_drop h6 (fun _ a => a)
    | fetchFail _ => exact tasks_drop h6 (fun _ a => a)
    | fresh _ =>
      exact tasks_replace _ h6 (fun _ a => a) (fun hq => (Bool.false_ne_true hq).elim)
    | queue _ _ =>
      exact tasks_replace _ h6 (fun _ a => a) (fun hq => (Bool.false_ne_true hq).elim)
    | blocked _ =>
      exact tasks_replace _ h6 (fun _ a => a) (fun hq => (Bool.false_ne_true hq).elim)
    | acquire _ =>
      exact tasks_replace _ h6 (fun _ a => a) (fun hq => (Bool.false_ne_true hq).elim)
  · cases hf with
    | cached hd =>
      refine tasks_replace _ h7 (fun _ a => a) (fun _ => ?_)
      have e := hc0 rfl
      simp only [tileExists, ← e, hd, Bool.true_or]
    | fetched code body hk hg h2 hcr =>
      refine tasks_replace _ h7 (fun _ a => a) (fun _ => ?_)
      have e := s5 rfl
      simp only [tileExists, e, hk, Bool.not_false, Bool.and_self, Bool.or_true]
    | mark held => exact tasks_replace _ h7 (fun _ a => a) (fun _ => s7 rfl)
    | spawn held =>
      exact tasks_spawn _ h7 (fun _ a => a) (fun _ _ hq => (Bool.false_ne_true hq).elim)
    | seen _ => exact tasks_drop h7 (fun _ a => a)
    | localSkip _ _ => exact tasks_drop h7 (fun _ a => a)
    | fetchFail _ => exact tasks_drop h7 (fun _ a => a)
    | copyFail _ _ _ _ _ _ _ => exact tasks_drop h7 (fun _ a => a)
    | fresh _ =>
      exact tasks_replace _ h7 (fun _ a => a) (fun hq => (Bool.false_ne_true hq).elim)
    | queue _ _ =>
      exact tasks_replace _ h7 (fun _ a => a) (fun hq => (Bool.false_ne_true hq).elim)
    | blocked _ =>
      exact tasks_replace _ h7 (fun _ a => a) (fun hq => (Bool.false_ne_true hq).elim)
    | acquire _ =>
      exact tasks_replace _ h7 (fun _ a => a) (fun hq => (Bool.false_ne_true hq).elim)
  · cases hf with
    | cached hd =>
      refine tasks_replace _ h8 (fun _ a => a) (fun _ hn => ?_)
      have e := hc0 rfl
      simp only at hn
      rw [← e, hd] at hn
      exact (Bool.false_ne_true hn.symm).elim
    | fetched code body hk hg h2 hcr =>
      exact tasks_replace _ h8 (fun _ a hq hn => List.mem_append_left _ (a hq hn))
        (fun _ _ => List.mem_append_right _ (List.mem_singleton_self _))
    | copyFail code body k hk hg h2 hcr =>
      exact tasks_drop h8 (fun _ a hq hn => List.mem_append_left _ (a hq hn))
    | fetchFail _ =>
      exact tasks_drop h8 (fun _ a hq hn => List.mem_append_left _ (a hq hn))
    | mark held => exact tasks_replace _ h8 (fun _ a => a) (fun _ => s8 rfl)
    | spawn held =>
      exact tasks_spawn _ h8 (fun _ a => a) (fun _ _ hq => (Bool.false_ne_true hq).elim)
    | seen _ => exact tasks_drop h8 (fun _ a => a)
    | localSkip _ _ => exact tasks_drop h8 (fun _ a => a)
    | fresh _ =>
      exact tasks_replace _ h8 (fun _ a => a) (fun hq => (Bool.false_ne_true hq).elim)
    | queue _ _ =>
      exact tasks_replace _ h8 (fun _ a => a) (fun hq => (Bool.false_ne_true hq).elim)
    | blocked _ =>
      exact tasks_replace _ h8 (fun _ a => a) (fun hq => (Bool.false_ne_true hq).elim)
    | acquire _ =>
      exact tasks_replace _ h8 (fun _ a => a) (fun hq => (Bool.false_ne_true hq).elim)
  · cases hf with
    | copyFail code body k hk hg h2 hcr =>
      exact fun x hx => writeFile_isSome_of _ _ _ _ (h9 x hx)
    | fetched code body hk hg h2 hcr =>
      exact fun x hx => writeFile_isSome_of _ _ _ _ (h9 x hx)
    | mark held =>
      intro x hx
      rcases Finset.mem_insert.mp hx with rfl | hx
      · exact s6 rfl
      · exact h9 x hx
    | _ => exact h9
  · cases hf with
    | fetchFail _ => exact fun x hx hn => List.mem_append_left _ (h10 x hx hn)
    | copyFail code body k hk hg h2 hcr =>
      exact fun x hx hn => List.mem_append_left _ (h10 x hx hn)
    | fetched code body hk hg h2 hcr =>
      exact fun x hx hn => List.mem_append_left _ (h10 x hx hn)
    | mark held =>
      intro x hx hn
      rcases Finset.mem_insert.mp hx with rfl | hx
      · exact s8 rfl hn
      · exact h10 x hx hn
    | _ => exact h10
  · cases hf with
    | fetchFail _ => exact fun x hx hn => List.mem_append_left _ (h11 x hx hn)
    | copyFail code body k hk hg h2 hcr =>
      intro x hx hn
      rcases writeFile_isSome_cases _ _ _ _ hx with rfl | hx
      · exact List.mem_append_right _ (List.mem_singleton_self _)
      · exact List.mem_append_left _ (h11 x hx hn)
    | fetched code body hk hg h2 hcr =>
      intro x hx hn
      rcases writeFile_isSome_cases _ _ _ _ hx with rfl | hx
      · exact List.mem_append_right _ (List.mem_singleton_self _)
      · exact List.mem_append_left _ (h11 x hx hn)
    | _ => exact h11
  · cases hf with
    | copyFail code body k hk hg h2 hcr =>
      intro x hx hn
      rcases writeFile_isSome_cases _ _ _ _ hx with rfl | hx
      · exact hst code body hg h2 hcr
      · exact h12 x hx hn
    | fetched code body hk hg h2 hcr =>
      intro x hx hn
      rcases writeFile_isSome_cases _ _ _ _ hx with rfl | hx
      · exact hst code body hg h2 hcr
      · exact h12 x hx hn
    | _ => exact h12

/-! ## Soundness of the crawl -/

theorem invValid_step (env : Env) (s : World) (pre : List Visit) (c : Coord) (pc : PC)
    (post : List Visit) (s' : World) (h : InvValid s)
    (ht : s.tasks = pre ++ Visit.mk c pc :: post)
    (hf : Fired env s pre c post pc s') : InvValid s' := by
  unfold InvValid at h ⊢
  rw [ht] at h
  have hs : Valid c := tasks_self h
  cases hf <;> first
    | exact tasks_drop h (fun _ a => a)
    | exact tasks_replace _ h (fun _ a => a) hs
    | exact tasks_spawn _ h (fun _ a => a) (fun d hd => neighbors_valid c d hs hd)

theorem cand_reach (env : Env) (disk0 : Disk) (seeds : List Coord) (c : Coord)
    (hc : Cand env disk0 seeds c) (he : tileExists env disk0 c.image = true) :
    Reach env disk0 seeds c := by
  rcases hc with hs | ⟨p, hp, hn⟩
  · exact Reach.seed c hs he
  · exact Reach.step p c hp hn he

theorem invSound_step (env : Env) (disk0 : Disk) (seeds : List Coord) (s : World)
    (pre : List Visit) (c : Coord) (pc : PC) (post : List Visit) (s' : World)
    (h : InvSound env disk0 seeds s) (hd : InvDisk env disk0 s)
    (ht : s.tasks = pre ++ Visit.mk c pc :: post)
    (hf : Fired env s pre c post pc s') : InvSound env disk0 seeds s' := by
  obtain ⟨h1, h2, h3⟩ := h
  have h7 := hd.2.2.2.2.2.2.1
  rw [ht] at h1 h7
  have hc : Cand env disk0 seeds c := tasks_self h1
  have he : pc.past = true → tileExists env disk0 c.image = true := tasks_self h7
  refine ⟨?_, ?_, ?_⟩
  · cases hf <;> first
      | exact tasks_drop h1 (fun _ a => a)
      | exact tasks_replace _ h1 (fun _ a => a) hc
      | exact tasks_spawn _ h1 (fun _ a => a)
          (fun d hd => Or.inr ⟨c, cand_reach env disk0 seeds c hc (he rfl), hd⟩)
  · cases hf with
    | mark held =>
      intro x hx
      rcases Finset.mem_insert.mp hx with rfl | hx
      · exact ⟨c, cand_reach env disk0 seeds c hc (he rfl), rfl⟩
      · exact h2 x hx
    | _ => exact h2
  · cases hf with
    | fresh hn =>
      intro x hx
      rcases Finset.mem_insert.mp hx with rfl | hx
      · exact ⟨c, hc, rfl⟩
      · exact h3 x hx
    | _ => exact h3

/-! ## Completeness of the crawl -/

theorem pending_step {pre post tasks' : List Visit} {c : Coord} {pc : PC}
    {tried tried' : Finset String} {d : Coord}
    (h : Pending (pre ++ Visit.mk c pc :: post) tried d) (hs : tried ⊆ tried')
    (hst : pc = PC.start → c.image ∈ tried')
    (hsub : ∀ t, t ∈ pre ∨ t ∈ post → t ∈ tasks') : Pending tasks' tried' d := by
  rcases h with h | h
  · exact Or.inl (hs h)
  · simp only [List.mem_append, List.mem_cons] at h
    rcases h with h | h | h
    · exact Or.inr (hsub _ (Or.inl h))
    · simp only [Visit.mk.injEq] at h
      left
      rw [h.1]
      exact hst h.2.symm
    · exact Or.inr (hsub _ (Or.inr h))

theorem settled_step {env : Env} {disk0 : Disk} {pre post tasks' : List Visit} {c : Coord}
    {pc : PC} {tried tried' fnd fnd' : Finset String} {c0 : Coord}
    (h : Settled env disk0 (pre ++ Visit.mk c pc :: post) tried fnd c0)
    (hs : tried ⊆ tried') (hfs : fnd ⊆ fnd')
    (hst : pc = PC.start → c.image ∈ tried')
    (hsub : ∀ t, t ∈ pre ∨ t ∈ post → t ∈ tasks')
    (hself : pc ≠ PC.start → Settled env disk0 tasks' tried' fnd' c) :
    Settled env disk0 tasks' tried' fnd' c0 := by
  rcases h with ⟨t, ht, htc, htp⟩ | h | ⟨h1, h2⟩
  · simp only [List.mem_append, List.mem_cons] at ht
    rcases ht with ht | rfl | ht
    · exact Or.inl ⟨t, hsub _ (Or.inl ht), htc, htp⟩
    · simp only at htc htp
      rw [← htc]
      exact hself htp
    · exact Or.inl ⟨t, hsub _ (Or.inr ht), htc, htp⟩
  · exact Or.inr (Or.inl h)
  · exact Or.inr (Or.inr ⟨hfs h1, fun d hd => pending_step (h2 d hd) hs hst hsub⟩)

theorem sub_drop {pre post : List Visit} : ∀ t, t ∈ pre ∨ t ∈ post → t ∈ pre ++ post := by
  intro t ht
  simp only [List.mem_append]
  exact ht

theorem sub_replace {pre post : List Visit} (w : Visit) :
    ∀ t, t ∈ pre ∨ t ∈ post → t ∈ pre ++ w :: post := by
  intro t ht
  simp only [List.mem_append, List.mem_cons]
  tauto

theorem sub_spawn {pre post : List Visit} (l : List Visit) :
    ∀ t, t ∈ pre ∨ t ∈ post → t ∈ pre ++ post ++ l := by
  intro t ht
  simp only [List.mem_append]
  tauto

theorem alive_replace {env : Env} {disk0 : Disk} {pre post : List Visit} {c : Coord} (pc : PC)
    {tried fnd : Finset String} (hp : pc ≠ PC.start) :
    Settled env disk0 (pre ++ Visit.mk c pc :: post) tried fnd c :=
  Or.inl ⟨Visit.mk c pc, by simp, rfl, hp⟩

theorem invComplete_of {env : Env} {disk0 : Disk} {seeds : List Coord} {s : World}
    {pre post tasks' : List Visit} {c : Coord} {pc : PC} {tried' fnd' : Finset String}
    (h : InvComplete env disk0 seeds s) (ht : s.tasks = pre ++ Visit.mk c pc :: post)
    (hs : s.tried ⊆ tried') (hfs : s.found ⊆ fnd')
    (hst : pc = PC.start → c.image ∈ tried')
    (hsub : ∀ t, t ∈ pre ∨ t ∈ post → t ∈ tasks')
    (hself : pc ≠ PC.start → Settled env disk0 tasks' tried' fnd' c)
    (hnew : ∀ c0, Valid c0 → c0.image ∈ tried' → c0.image ∉ s.tried →
      Settled env disk0 tasks' tried' fnd' c0) :
    (∀ c ∈ seeds, Pending tasks' tried' c)
      ∧ (∀ c0, Valid c0 → c0.image ∈ tried' → Settled env disk0 tasks' tried' fnd' c0) := by
  obtain ⟨h1, h2⟩ := h
  rw [ht] at h1 h2
  refine ⟨fun d hd => pending_step (h1 d hd) hs hst hsub, fun c0 hv hin => ?_⟩
  by_cases hold : c0.image ∈ s.tried
  · exact settled_step (h2 c0 hv hold) hs hfs hst hsub hself
  · exact hnew c0 hv hin hold

theorem not_exists_of_disk0 (env : Env) (disk0 : Disk) (image : String)
    (h0 : (disk0 image).isSome = false)
    (h : env.isLocal = true ∨ fetchOk env image = false) :
    tileExists env disk0 image = false := by
  unfold tileExists
  rcases h with h | h <;> simp [h0, h]

theorem invComplete_step (env : Env) (disk0 : Disk) (seeds : List Coord) (s : World)
    (pre : List Visit) (c : Coord) (pc : PC) (post : List Visit) (s' : World)
    (h : InvComplete env disk0 seeds s) (hv : InvValid s) (hti : InvTried s)
    (hd : InvDisk env disk0 s) (ho : InvOnce s)
    (ht : s.tasks = pre ++ Visit.mk c pc :: post)
    (hf : Fired env s pre c post pc s') : InvComplete env disk0 seeds s' := by
  have hnr : (pc = PC.checked ∨ pc = PC.waiting ∨ pc = PC.fetching) → c.image ∉ s.requests :=
    fun hp => inflight_not_requested s ho (Visit.mk c pc) (by rw [ht]; simp) hp
  have hc0 : pc = PC.checked → s.disk c.image = disk0 c.image :=
    fun hp => hd.1 _ (hnr (Or.inl hp))
  have h4 := hd.2.2.2.1
  have h3 := hti.2.2
  unfold InvValid at hv
  rw [ht] at h4 h3 hv
  have s4 : pc.queued = true → (disk0 c.image).isSome = false := tasks_self h4
  have s3 : ∀ hl, pc = PC.spawning hl → c.image ∈ s.found := tasks_self h3
  have sv : Valid c := tasks_self hv
  have hold : ∀ c0, Valid c0 → c0.image ∈ s.tried → c0.image ∉ s.tried →
      Settled env disk0 s'.tasks s'.tried s'.found c0 := fun _ _ a b => (b a).elim
  clear hnr h4 h3 hv ho hd hti
  cases hf with
  | seen hin =>
    exact invComplete_of h ht (Finset.Subset.refl _) (Finset.Subset.refl _) (fun _ => hin)
      sub_drop (fun hp => (hp rfl).elim) hold
  | fresh hnin =>
    refine invComplete_of h ht (Finset.subset_insert _ _) (Finset.Subset.refl _)
      (fun _ => Finset.mem_insert_self _ _) (sub_replace _) (fun hp => (hp rfl).elim) ?_
    intro c0 hv0 hin hni
    rcases Finset.mem_insert.mp hin with he | he
    · have : c0 = c := image_inj c0 c hv0 sv he
      rw [this]
      exact alive_replace PC.checked (by decide)
    · exact (hni he).elim
  | cached hdk =>
    exact invComplete_of h ht (Finset.Subset.refl _) (Finset.Subset.refl _)
      (fun hp => PC.noConfusion hp) (sub_replace _)
      (fun _ => alive_replace (PC.confirmed false) (by decide)) hold
  | localSkip hdk hl =>
    refine invComplete_of h ht (Finset.Subset.refl _) (Finset.Subset.refl _)
      (fun hp => PC.noConfusion hp) sub_drop (fun _ => Or.inr (Or.inl ?_)) hold
    apply not_exists_of_disk0 _ _ _ _ (Or.inl hl)
    rw [← hc0 rfl]
    exact hdk
  | queue hdk hl =>
    exact invComplete_of h ht (Finset.Subset.refl _) (Finset.Subset.refl _)
      (fun hp => PC.noConfusion hp) (sub_replace _)
      (fun _ => alive_replace PC.waiting (by decide)) hold
  | blocked hp0 =>
    exact invComplete_of h ht (Finset.Subset.refl _) (Finset.Subset.refl _)
      (fun hp => PC.noConfusion hp) (sub_replace _)
      (fun _ => alive_replace PC.waiting (by decide)) hold
  | acquire hp0 =>
    exact invComplete_of h ht (Finset.Subset.refl _) (Finset.Subset.refl _)
      (fun hp => PC.noConfusion hp) (sub_replace _)
      (fun _ => alive_replace PC.fetching (by decide)) hold
  | fetchFail hk =>
    exact invComplete_of h ht (Finset.Subset.refl _) (Finset.Subset.refl _)
      (fun hp => PC.noConfusion hp) sub_drop
      (fun _ => Or.inr (Or.inl (not_exists_of_disk0 _ _ _ (s4 rfl) (Or.inr hk)))) hold
  | copyFail code body k hk hg h2 hcr =>
    exact invComplete_of h ht (Finset.Subset.refl _) (Finset.Subset.refl _)
      (fun hp => PC.noConfusion hp) sub_drop
      (fun _ => Or.inr (Or.inl (not_exists_of_disk0 _ _ _ (s4 rfl) (Or.inr hk)))) hold
  | fetched code body hk hg h2 hcr =>
    exact invComplete_of h ht (Finset.Subset.refl _) (Finset.Subset.refl _)
      (fun hp => PC.noConfusion hp) (sub_replace _)
      (fun _ => alive_replace (PC.confirmed true) (by decide)) hold
  | mark held =>
    exact invComplete_of h ht (Finset.Subset.refl _) (Finset.subset_insert _ _)
      (fun hp => PC.noConfusion hp) (sub_replace _)
      (fun _ => alive_replace (PC.spawning held) (fun hp => PC.noConfusion hp)) hold
  | spawn held =>
    refine invComplete_of h ht (Finset.Subset.refl _) (Finset.Subset.refl _)
      (fun hp => PC.noConfusion hp) (sub_spawn _)
      (fun _ => Or.inr (Or.inr ⟨s3 held rfl, fun d hd => Or.inr ?_⟩)) hold
    simp only [List.mem_append, List.mem_map]
    exact Or.inr ⟨d, hd, rfl⟩

/-! ## Every tried name is requested -/

theorem invRequested_of {env : Env} {s : World} {pre post tasks' : List Visit} {c : Coord}
    {pc : PC} {tried' fnd' : Finset String} {requests' : List String}
    (h : InvRequested env s) (ht : s.tasks = pre ++ Visit.mk c pc :: post)
    (hfs : s.found ⊆ fnd') (hrs : ∀ x ∈ s.requests, x ∈ requests')
    (hsub : ∀ t, t ∈ pre ∨ t ∈ post → t ∈ tasks')
    (hself : pc.busy = true → (∃ t ∈ tasks', t.c.image = c.image ∧ t.pc.busy = true)
      ∨ c.image ∈ fnd' ∨ c.image ∈ requests' ∨ env.isLocal = true)
    (hnew : ∀ x ∈ tried', x ∉ s.tried → (∃ t ∈ tasks', t.c.image = x ∧ t.pc.busy = true)
      ∨ x ∈ fnd' ∨ x ∈ requests' ∨ env.isLocal = true) :
    ∀ x ∈ tried', (∃ t ∈ tasks', t.c.image = x ∧ t.pc.busy = true)
      ∨ x ∈ fnd' ∨ x ∈ requests' ∨ env.isLocal = true := by
  intro x hx
  by_cases hold : x ∈ s.tried
  · rcases h x hold with ⟨t, htm, hti, htb⟩ | h1 | h1 | h1
    · rw [ht] at htm
      simp only [List.mem_append, List.mem_cons] at htm
      rcases htm with htm | rfl | htm
      · exact Or.inl ⟨t, hsub _ (Or.inl htm), hti, htb⟩
      · simp only at hti htb
        rw [← hti]
        exact hself htb
      · exact Or.inl ⟨t, hsub _ (Or.inr htm), hti, htb⟩
    · exact Or.inr (Or.inl (hfs h1))
    · exact Or.inr (Or.inr (Or.inl (hrs x h1)))
    · exact Or.inr (Or.inr (Or.inr h1))
  · exact hnew x hx hold

theorem busy_replace {pre post : List Visit} {c : Coord} (pc : PC) (hp : pc.busy = true)
    {P Q R : Prop} :
    (∃ t ∈ pre ++ Visit.mk c pc :: post, t.c.image = c.image ∧ t.pc.busy = true) ∨ P ∨ Q ∨ R :=
  Or.inl ⟨Visit.mk c pc, by simp, rfl, hp⟩

theorem invRequested_step (env : Env) (s : World) (pre : List Visit) (c : Coord) (pc : PC)
    (post : List Visit) (s' : World) (h : InvRequested env s)
    (ht : s.tasks = pre ++ Visit.mk c pc :: post)
    (hf : Fired env s pre c post pc s') : InvRequested env s' := by
  have hold : ∀ x ∈ s.tried, x ∉ s.tried →
      (∃ t ∈ s'.tasks, t.c.image = x ∧ t.pc.busy = true)
        ∨ x ∈ s'.found ∨ x ∈ s'.requests ∨ env.isLocal = true := fun _ a b => (b a).elim
  have hid : ∀ x ∈ s.requests, x ∈ s.requests := fun _ a => a
  have happ : ∀ x ∈ s.requests, x ∈ s.requests ++ [c.image] :=
    fun _ a => List.mem_append_left _ a
  have hlast : c.image ∈ s.requests ++ [c.image] :=
    List.mem_append_right _ (List.mem_singleton_self _)
  cases hf with
  | seen hin =>
    exact invRequested_of h ht (Finset.Subset.refl _) hid sub_drop
      (fun hp => (Bool.false_ne_true hp).elim) hold
  | fresh hnin =>
    refine invRequested_of h ht (Finset.Subset.refl _) hid (sub_replace _)
      (fun hp => (Bool.false_ne_true hp).elim) ?_
    intro x hx hni
    rcases Finset.mem_insert.mp hx with rfl | he
    · exact busy_replace PC.checked rfl
    · exact (hni he).elim
  | cached hdk =>
    exact invRequested_of h ht (Finset.Subset.refl _) hid (sub_replace _)
      (fun _ => busy_replace (PC.confirmed false) rfl) hold
  | localSkip hdk hl =>
    exact invRequested_of h ht (Finset.Subset.refl _) hid sub_drop
      (fun _ => Or.inr (Or.inr (Or.inr hl))) hold
  | queue hdk hl =>
    exact invRequested_of h ht (Finset.Subset.refl _) hid (sub_replace _)
      (fun _ => busy_replace PC.waiting rfl) hold
  | blocked hp0 =>
    exact invRequested_of h ht (Finset.Subset.refl _) hid (sub_replace _)
      (fun _ => busy_replace PC.waiting rfl) hold
  | acquire hp0 =>
    exact invRequested_of h ht (Finset.Subset.refl _) hid (sub_replace _)
      (fun _ => busy_replace PC.fetching rfl) hold
  | fetchFail hk =>
    exact invRequested_of h ht (Finset.Subset.refl _) happ sub_drop
      (fun _ => Or.inr (Or.inr (Or.inl hlast))) hold
  | copyFail code body k hk hg h2 hcr =>
    exact invRequested_of h ht (Finset.Subset.refl _) happ sub_drop
      (fun _ => Or.inr (Or.inr (Or.inl hlast))) hold
  | fetched code body hk hg h2 hcr =>
    exact invRequested_of h ht (Finset.Subset.refl _) happ (sub_replace _)
      (fun _ => Or.inr (Or.inr (Or.inl hlast))) hold
  | mark held =>
    exact invRequested_of h ht (Finset.subset_insert _ _) hid (sub_replace _)
      (fun _ => Or.inr (Or.inl (Finset.mem_insert_self _ _))) hold
  | spawn held =>
    exact invRequested_of h ht (Finset.Subset.refl _) hid (sub_spawn _)
      (fun hp => (Bool.false_ne_true hp).elim) hold

/-! ## The invariants hold in every state of a run -/

theorem init_tasks_start (disk0 : Disk) (seeds : List Coord) :
    ∀ t ∈ (init disk0 seeds).tasks, t.pc = PC.start := by
  intro t ht
  simp only [init, List.mem_map] at ht
  obtain ⟨c, _, rfl⟩ := ht
  rfl

theorem invTried_init (disk0 : Disk) (seeds : List Coord) : InvTried (init disk0 seeds) := by
  refine ⟨Finset.empty_subset _, fun t ht hp => (hp (init_tasks_start _ _ t ht)).elim,
    fun t ht h hp => ?_⟩
  rw [init_tasks_start _ _ t ht] at hp
  exact PC.noConfusion hp

theorem invOnce_init (disk0 : Disk) (seeds : List Coord) : InvOnce (init disk0 seeds) := by
  unfold InvOnce
  have : inflight (init disk0 seeds).tasks = [] := inflight_start seeds
  rw [this]
  simp [init]

theorem invDisk_init (env : Env) (disk0 : Disk) (seeds : List Coord) :
    InvDisk env disk0 (init disk0 seeds) := by
  have hq : ∀ t ∈ (init disk0 seeds).tasks, t.pc.queued = true → False := by
    intro t ht hp
    rw [init_tasks_start _ _ t ht] at hp
    exact Bool.false_ne_true hp
  have hp : ∀ t ∈ (init disk0 seeds).tasks, t.pc.past = true → False := by
    intro t ht hp
    rw [init_tasks_start _ _ t ht] at hp
    exact Bool.false_ne_true hp
  have hd : ∀ x, ((init disk0 seeds).disk x).isSome = true → (disk0 x).isSome = false →
      False := by
    intro x h1 h2
    simp only [init] at h1
    rw [h1] at h2
    exact Bool.false_ne_true h2.symm
  refine ⟨fun _ _ => rfl, ?_, ?_, fun t ht h => (hq t ht h).elim,
    fun t ht h => (hq t ht h).elim, fun t ht h => (hp t ht h).elim,
    fun t ht h => (hp t ht h).elim, fun t ht h => (hp t ht h).elim, ?_, ?_,
    fun x h1 h2 => (hd x h1 h2).elim, fun x h1 h2 => (hd x h1 h2).elim⟩
  · intro x hx
    simp [init] at hx
  · intro x hx
    simp [init] at hx
  · intro x hx
    simp [init] at hx
  · intro x hx
    simp [init] at hx

theorem invRequested_init (env : Env) (disk0 : Disk) (seeds : List Coord) :
    InvRequested env (init disk0 seeds) := by
  intro x hx
  simp [init] at hx

theorem invLabels_init (disk0 : Disk) (seeds : List Coord)
    (hs : ∀ c ∈ seeds, 1 ≤ c.coord1 ∧ 1 ≤ c.coord2) : InvLabels seeds (init disk0 seeds) := by
  refine ⟨?_, ?_⟩
  · intro t ht
    simp only [init, List.mem_map] at ht
    obtain ⟨c, hc, rfl⟩ := ht
    exact ⟨(hs c hc).1, (hs c hc).2, c, hc, rfl, rfl⟩
  · intro x hx
    simp [init] at hx

theorem invValid_init (disk0 : Disk) (seeds : List Coord) (hs : ∀ c ∈ seeds, Valid c) :
    InvValid (init disk0 seeds) := by
  intro t ht
  simp only [init, List.mem_map] at ht
  obtain ⟨c, hc, rfl⟩ := ht
  exact hs c hc

theorem invSound_init (env : Env) (disk0 : Disk) (seeds : List Coord) :
    InvSound env disk0 seeds (init disk0 seeds) := by
  refine ⟨?_, ?_, ?_⟩
  · intro t ht
    simp only [init, List.mem_map] at ht
    obtain ⟨c, hc, rfl⟩ := ht
    exact Or.inl hc
  · intro x hx
    simp [init] at hx
  · intro x hx
    simp [init] at hx

theorem invComplete_init (env : Env) (disk0 : Disk) (seeds : List Coord) :
    InvComplete env disk0 seeds (init disk0 seeds) := by
  refine ⟨?_, ?_⟩
  · intro c hc
    right
    simp only [init, List.mem_map]
    exact ⟨c, hc, rfl⟩
  · intro c _ hx
    simp [init] at hx

/-- The invariants that hold for every seed list. -/
theorem base_invariants (env : Env) (disk0 : Disk) (seeds : List Coord) (sched : List Nat) :
    InvTried (run env (init disk0 seeds) sched) ∧ InvOnce (run env (init disk0 seeds) sched)
      ∧ InvDisk env disk0 (run env (init disk0 seeds) sched)
      ∧ InvRequested env (run env (init disk0 seeds) sched)
      ∧ InvSound env disk0 seeds (run env (init disk0 seeds) sched) := by
  apply run_invariant env (fun s => InvTried s ∧ InvOnce s ∧ InvDisk env disk0 s
    ∧ InvRequested env s ∧ InvSound env disk0 seeds s)
  · intro s pre c pc post s' h ht hf
    obtain ⟨h1, h2, h3, h4, h5⟩ := h
    exact ⟨invTried_step env s pre c pc post s' h1 ht hf,
      invOnce_step env s pre c pc post s' h2 ht hf,
      invDisk_step env disk0 s pre c pc post s' h3 h2 ht hf,
      invRequested_step env s pre c pc post s' h4 ht hf,
      invSound_step env disk0 seeds s pre c pc post s' h5 h3 ht hf⟩
  · exact ⟨invTried_init _ _, invOnce_init _ _, invDisk_init _ _ _, invRequested_init _ _ _,
      invSound_init _ _ _⟩

theorem labels_invariant (env : Env) (disk0 : Disk) (seeds : List Coord) (sched : List Nat)
    (hs : ∀ c ∈ seeds, 1 ≤ c.coord1 ∧ 1 ≤ c.coord2) :
    InvLabels seeds (run env (init disk0 seeds) sched) := by
  apply run_invariant env (InvLabels seeds)
  · intro s pre c pc post s' h ht hf
    exact invLabels_step env seeds s pre c pc post s' h ht hf
  · exact invLabels_init _ _ hs

/-- The invariants that hold when the seeds are coordinates of the data model. -/
theorem crawl_invariants (env : Env) (disk0 : Disk) (seeds : List Coord) (sched : List Nat)
    (hs : ∀ c ∈ seeds, Valid c) :
    InvValid (run env (init disk0 seeds) sched)
      ∧ InvComplete env disk0 seeds (run env (init disk0 seeds) sched) := by
  have hb : ∀ s, (InvTried s ∧ InvOnce s ∧ InvDisk env disk0 s ∧ InvValid s
      ∧ InvComplete env disk0 seeds s) →
      InvValid s ∧ InvComplete env disk0 seeds s := fun s h => ⟨h.2.2.2.1, h.2.2.2.2⟩
  apply hb
  apply run_invariant env (fun s => InvTried s ∧ InvOnce s ∧ InvDisk env disk0 s
    ∧ InvValid s ∧ InvComplete env disk0 seeds s)
  · intro s pre c pc post s' h ht hf
    obtain ⟨h1, h2, h3, h4, h5⟩ := h
    exact ⟨invTried_step env s pre c pc post s' h1 ht hf,
      invOnce_step env s pre c pc post s' h2 ht hf,
      invDisk_step env disk0 s pre c pc post s' h3 h2 ht hf,
      invValid_step env s pre c pc post s' h4 ht hf,
      invComplete_step env disk0 seeds s pre c pc post s' h5 h4 h1 h3 h2 ht hf⟩
  · exact ⟨invTried_init _ _, invOnce_init _ _, invDisk_init _ _ _, invValid_init _ _ hs,
      invComplete_init _ _ _⟩

/-! ## The result of a complete run -/

theorem reach_valid (env : Env) (disk0 : Disk) (seeds : List Coord)
    (hs : ∀ c ∈ seeds, Valid c) (c : Coord) (h : Reach env disk0 seeds c) : Valid c := by
  induction h with
  | seed c hc _ => exact hs c hc
  | step c d _ hn _ ih => exact neighbors_valid c d ih hn

theorem reach_exists (env : Env) (disk0 : Disk) (seeds : List Coord) (c : Coord)
    (h : Reach env disk0 seeds c) : tileExists env disk0 c.image = true := by
  cases h with
  | seed _ _ he => exact he
  | step _ _ _ _ he => exact he

theorem complete_settled (env : Env) (disk0 : Disk) (seeds : List Coord) (s : World)
    (hc : Complete s) (h : InvComplete env disk0 seeds s) :
    (∀ c ∈ seeds, c.image ∈ s.tried)
      ∧ (∀ c, Valid c → c.image ∈ s.tried → tileExists env disk0 c.image = true →
          c.image ∈ s.found ∧ ∀ d ∈ neighbors c, d.image ∈ s.tried) := by
  unfold Complete at hc
  obtain ⟨h1, h2⟩ := h
  rw [hc] at h1 h2
  have hp : ∀ d, Pending [] s.tried d → d.image ∈ s.tried := by
    intro d hd
    rcases hd with hd | hd
    · exact hd
    · simp at hd
  refine ⟨fun c hcs => hp c (h1 c hcs), fun c hv hin he => ?_⟩
  rcases h2 c hv hin with ⟨t, ht, _⟩ | hn | ⟨hf, hnb⟩
  · simp at ht
  · rw [he] at hn
    exact (Bool.false_ne_true hn.symm).elim
  · exact ⟨hf, fun d hd => hp d (hnb d hd)⟩

theorem complete_reach (env : Env) (disk0 : Disk) (seeds : List Coord) (s : World)
    (hs : ∀ c ∈ seeds, Valid c) (hc : Complete s) (h : InvComplete env disk0 seeds s)
    (c : Coord) (hr : Reach env disk0 seeds c) :
    c.image ∈ s.found ∧ ∀ d ∈ neighbors c, d.image ∈ s.tried := by
  obtain ⟨h1, h2⟩ := complete_settled env disk0 seeds s hc h
  induction hr with
  | seed c hcs he => exact h2 c (hs c hcs) (h1 c hcs) he
  | step p d hp hn he ih =>
    exact h2 d (neighbors_valid p d (reach_valid env disk0 seeds hs p hp) hn) (ih.2 d hn) he

/-- The sets at the end of a complete run: what is found are the names of the reachable
coordinates, what is tried are the names of the seeds and of the neighbours of the reachable
coordinates. -/
theorem complete_sets (env : Env) (disk0 : Disk) (seeds : List Coord) (sched : List Nat)
    (hs : ∀ c ∈ seeds, Valid c) (hc : Complete (run env (init disk0 seeds) sched)) :
    (∀ x, x ∈ (run env (init disk0 seeds) sched).found ↔
        ∃ c, Reach env disk0 seeds c ∧ x = c.image)
      ∧ (∀ x, x ∈ (run env (init disk0 seeds) sched).tried ↔
        ((∃ c ∈ seeds, x = c.image) ∨
          ∃ p d, Reach env disk0 seeds p ∧ d ∈ neighbors p ∧ x = d.image)) := by
  obtain ⟨_, _, _, _, hsound⟩ := base_invariants env disk0 seeds sched
  obtain ⟨_, hcomp⟩ := crawl_invariants env disk0 seeds sched hs
  have hseed := (complete_settled env disk0 seeds _ hc hcomp).1
  have hreach := complete_reach env disk0 seeds _ hs hc hcomp
  refine ⟨fun x => ⟨hsound.2.1 x, ?_⟩, fun x => ⟨?_, ?_⟩⟩
  · rintro ⟨c, hr, rfl⟩
    exact (hreach c hr).1
  · intro hx
    obtain ⟨c, hcand, rfl⟩ := hsound.2.2 x hx
    rcases hcand with hcs | ⟨p, hp, hn⟩
    · exact Or.inl ⟨c, hcs, rfl⟩
    · exact Or.inr ⟨p, c, hp, hn, rfl⟩
  · rintro (⟨c, hcs, rfl⟩ | ⟨p, d, hp, hn, rfl⟩)
    · exact hseed c hcs
    · exact (hreach p hp).2 d hn

/-! ## The index table -/

theorem foldl_emit (l : List Int) (f1 f2 : Int → String → String) (g : Int → String)
    (h1 : ∀ x ∈ l, x < 0 → ∀ out, f1 x out = out ++ g x)
    (h2 : ∀ x ∈ l, x > 0 → ∀ out, f2 x out = out ++ g x) (out : String) :
    l.foldl (fun out x => if x < 0 then f1 x out else if x > 0 then f2 x out else out) out
      = out ++ ((l.filter (fun x => decide (x ≠ 0))).map g).foldr (fun a b => a ++ b) "" := by
  induction l generalizing out with
  | nil => simp
  | cons a l ih =>
    have ih' := ih (fun x hx => h1 x (List.mem_cons_of_mem _ hx))
      (fun x hx => h2 x (List.mem_cons_of_mem _ hx))
    simp only [List.foldl_cons]
    by_cases ha : a < 0
    · have hne : a ≠ 0 := by omega
      rw [if_pos ha, ih', h1 a (List.mem_cons_self _ _) ha]
      simp [List.filter_cons, hne, String.append_assoc]
    · by_cases hb : a > 0
      · have hne : a ≠ 0 := by omega
        rw [if_neg ha, if_pos hb, ih', h2 a (List.mem_cons_self _ _) hb]
        simp [List.filter_cons, hne, String.append_assoc]
      · have he : a = 0 := by omega
        rw [if_neg ha, if_neg hb, ih']
        simp [List.filter_cons, he]

theorem abs_eq_natAbs (x : Int) (h1 : -50 ≤ x) (h2 : x ≤ 50) : abs x = (x.natAbs : Int) := by
  unfold abs wrapInt
  split <;> omega

theorem mem_rowRange (r : Int) (h : r ∈ rowRange) : -50 ≤ r ∧ r ≤ 50 := by
  simp only [rowRange, List.mem_map, List.mem_range] at h
  obtain ⟨i, hi, hr⟩ := h
  omega

theorem mem_colRange (c : Int) (h : c ∈ colRange) : -50 ≤ c ∧ c ≤ 50 := by
  simp only [colRange, List.mem_map, List.mem_range] at h
  obtain ⟨i, hi, hr⟩ := h
  omega

theorem renderCell_eq (fnd tried : Finset String) (r c : Int) (out : String)
    (hr : -50 ≤ r ∧ r ≤ 50) (hc : -50 ≤ c ∧ c ≤ 50) :
    renderCell fnd tried r (rowLabel r) c (colLabel c) out = out ++ cellText fnd tried r c := by
  unfold renderCell cellText
  simp only [abs_eq_natAbs r hr.1 hr.2, abs_eq_natAbs c hc.1 hc.2]
  split
  · simp only [String.append_assoc]
  · split
    · simp only [String.append_assoc]
    · simp only [String.append_assoc]

theorem renderCols_eq (fnd tried : Finset String) (r : Int) (out : String)
    (hr : -50 ≤ r ∧ r ≤ 50) :
    renderCols fnd tried r (rowLabel r) out
      = out ++ ((colRange.filter (fun c => decide (c ≠ 0))).map (cellText fnd tried r)).foldr
          (fun a b => a ++ b) "" := by
  unfold renderCols
  apply foldl_emit colRange _ _ (cellText fnd tried r)
  · intro c hc hlt out
    have := renderCell_eq fnd tried r c out hr (mem_colRange c hc)
    have hl : colLabel c = "w" := by
      unfold colLabel
      rw [if_neg (by omega)]
    rw [hl] at this
    exact this
  · intro c hc hgt out
    have := renderCell_eq fnd tried r c out hr (mem_colRange c hc)
    have hl : colLabel c = "e" := by
      unfold colLabel
      rw [if_pos hgt]
    rw [hl] at this
    exact this

theorem renderRow_eq (fnd tried : Finset String) (r : Int) (out : String)
    (hr : -50 ≤ r ∧ r ≤ 50) :
    renderRow fnd tried r (rowLabel r) out = out ++ rowText fnd tried r := by
  unfold renderRow rowText
  simp only [renderCols_eq fnd tried r _ hr, String.append_assoc]

theorem renderTable_eq (fnd tried : Finset String) (out : String) :
    renderTable fnd tried out
      = out ++ ((rowRange.filter (fun r => decide (r ≠ 0))).map (rowText fnd tried)).foldr
          (fun a b => a ++ b) "" := by
  unfold renderTable
  apply foldl_emit rowRange _ _ (rowText fnd tried)
  · intro r hr hlt out
    have := renderRow_eq fnd tried r out (mem_rowRange r hr)
    have hl : rowLabel r = "s" := by
      unfold rowLabel
      rw [if_neg (by omega)]
    rw [hl] at this
    exact this
  · intro r hr hgt out
    have := renderRow_eq fnd tried r out (mem_rowRange r hr)
    have hl : rowLabel r = "n" := by
      unfold rowLabel
      rw [if_pos hgt]
    rw [hl] at this
    exact this

/-! ## Runs compared -/

theorem complete_runs_agree (env : Env) (disk0 : Disk) (seeds : List Coord)
    (hs : ∀ c ∈ seeds, Valid c) (a b : List Nat)
    (ha : Complete (run env (init disk0 seeds) a)) (hb : Complete (run env (init disk0 seeds) b)) :
    (run env (init disk0 seeds) a).found = (run env (init disk0 seeds) b).found
      ∧ (run env (init disk0 seeds) a).tried = (run env (init disk0 seeds) b).tried := by
  obtain ⟨fa, ta⟩ := complete_sets env disk0 seeds a hs ha
  obtain ⟨fb, tb⟩ := complete_sets env disk0 seeds b hs hb
  constructor
  · ext x
    rw [fa x, fb x]
  · ext x
    rw [ta x, tb x]

theorem tileExists_noFileErrors (env : Env) (disk0 : Disk) (hio : NoFileErrors env)
    (x : String) :
    tileExists env disk0 x = ((disk0 x).isSome || (!env.isLocal && onServer env x)) := by
  unfold tileExists fetchOk onServer
  cases hg : env.get x with
  | transportErr => rfl
  | status code body => simp [(hio x).1, (hio x).2]

theorem stored_fetchOk (env : Env) (hio : NoFileErrors env) (x : String)
    (h : stored env x = true) : fetchOk env x = true := by
  unfold stored at h
  unfold fetchOk
  cases hg : env.get x with
  | transportErr => rw [hg] at h; exact h
  | status code body =>
    rw [hg] at h
    simp only [(hio x).2, Option.isNone_none, Bool.and_true]
    exact h

theorem tileExists_after_run (env : Env) (disk0 : Disk) (seeds : List Coord)
    (hio : NoFileErrors env) (sched : List Nat) (x : String) :
    tileExists env (run env (init disk0 seeds) sched).disk x = tileExists env disk0 x := by
  obtain ⟨_, _, hd, _, _⟩ := base_invariants env disk0 seeds sched
  obtain ⟨_, _, h3, _, _, _, _, _, _, _, h11, h12⟩ := hd
  have hm := (run_mono env sched (init disk0 seeds)).2.2.1 x
  cases h0 : (disk0 x).isSome
  · cases h1 : ((run env (init disk0 seeds) sched).disk x).isSome
    · simp [tileExists, h0, h1]
    · have hl := h3 x (h11 x h1 h0)
      have hf := stored_fetchOk env hio x (h12 x h1 h0)
      simp [tileExists, h0, h1, hl, hf]
  · have h1 := hm h0
    simp [tileExists, h0, h1]

theorem reach_congr (env : Env) (d1 d2 : Disk) (seeds : List Coord)
    (h : ∀ x, tileExists env d1 x = tileExists env d2 x) (c : Coord)
    (hr : Reach env d1 seeds c) : Reach env d2 seeds c := by
  induction hr with
  | seed c hc he => exact Reach.seed c hc (by rw [← h]; exact he)
  | step p d _ hn he ih => exact Reach.step p d ih hn (by rw [← h]; exact he)

/-- The requests of a complete run that is not `-local`: the tried names without a file at
the start. -/
theorem complete_requests (env : Env) (disk0 : Disk) (seeds : List Coord) (sched : List Nat)
    (hc : Complete (run env (init disk0 seeds) sched)) (x : String) :
    x ∈ (run env (init disk0 seeds) sched).requests ↔
      (x ∈ (run env (init disk0 seeds) sched).tried ∧ (disk0 x).isSome = false
        ∧ env.isLocal = false) := by
  obtain ⟨_, ho, hd, hr, _⟩ := base_invariants env disk0 seeds sched
  obtain ⟨_, h2, h3, _, _, _, _, _, _, h10, _, _⟩ := hd
  constructor
  · intro hx
    exact ⟨ho.2 x (List.mem_append_right _ hx), h2 x hx, h3 x hx⟩
  · rintro ⟨ht, h0, hl⟩
    unfold Complete at hc
    rcases hr x ht with ⟨t, htm, _⟩ | hf | hq | hloc
    · rw [hc] at htm
      simp at htm
    · exact h10 x hf h0
    · exact hq
    · rw [hl] at hloc
      exact (Bool.false_ne_true hloc).elim

theorem crawl_twice_sets (env : Env) (disk0 : Disk) (seeds : List Coord)
    (hs : ∀ c ∈ seeds, Valid c) (hio : NoFileErrors env) (a b : List Nat)
    (ha : Complete (run env (init disk0 seeds) a))
    (hb : Complete (run env (init (run env (init disk0 seeds) a).disk seeds) b)) :
    (run env (init (run env (init disk0 seeds) a).disk seeds) b).tried
        = (run env (init disk0 seeds) a).tried
      ∧ (run env (init (run env (init disk0 seeds) a).disk seeds) b).found
        = (run env (init disk0 seeds) a).found := by
  obtain ⟨fa, ta⟩ := complete_sets env disk0 seeds a hs ha
  obtain ⟨fb, tb⟩ := complete_sets env (run env (init disk0 seeds) a).disk seeds b hs hb
  have he := tileExists_after_run env disk0 seeds hio a
  have r1 : ∀ c, Reach env (run env (init disk0 seeds) a).disk seeds c ↔
      Reach env disk0 seeds c :=
    fun c => ⟨reach_congr env _ _ seeds he c, reach_congr env _ _ seeds (fun x => (he x).symm) c⟩
  constructor
  · ext x
    rw [ta x, tb x]
    simp only [r1]
  · ext x
    rw [fa x, fb x]
    simp only [r1]

/-! ## Every run can be completed -/

theorem holders_append (a b : List Visit) : holders (a ++ b) = holders a + holders b := by
  simp [holders]

theorem holders_cons (t : Visit) (l : List Visit) :
    holders (t :: l) = (if t.pc.holds = true then 1 else 0) + holders l := by
  by_cases h : t.pc.holds = true
  · simp [holders, List.filter_cons, h]; omega
  · simp [holders, List.filter_cons, h]

theorem holders_start (l : List Coord) :
    holders (l.map (fun d => Visit.mk d PC.start)) = 0 := by
  induction l with
  | nil => rfl
  | cons a l ih =>
    rw [List.map_cons, holders_cons, ih]
    rfl

theorem invPermits_step (env : Env) (s : World) (pre : List Visit) (c : Coord) (pc : PC)
    (post : List Visit) (s' : World) (h : InvPermits s)
    (ht : s.tasks = pre ++ Visit.mk c pc :: post)
    (hf : Fired env s pre c post pc s') : InvPermits s' := by
  unfold InvPermits at h ⊢
  rw [ht, holders_append, holders_cons] at h
  cases hf with
  | spawn held =>
    simp only [holders_append, holders_start]
    cases held <;> simp [PC.holds] at h ⊢ <;> omega
  | mark held =>
    simp only [holders_append, holders_cons]
    cases held <;> simp [PC.holds] at h ⊢ <;> omega
  | _ =>
    simp only [holders_append, holders_cons]
    simp [PC.holds] at h ⊢
    omega

theorem invPermits_run (env : Env) (disk0 : Disk) (seeds : List Coord) (sched : List Nat) :
    InvPermits (run env (init disk0 seeds) sched) := by
  apply run_invariant env InvPermits
  · intro s pre c pc post s' h ht hf
    exact invPermits_step env s pre c pc post s' h ht hf
  · unfold InvPermits
    have : holders (init disk0 seeds).tasks = 0 := holders_start seeds
    rw [this]
    rfl

theorem stepAt_at (env : Env) (s : World) (pre : List Visit) (t : Visit) (post : List Visit)
    (ht : s.tasks = pre ++ t :: post) :
    stepAt env s pre.length = downloadStep env s pre t post := by
  unfold stepAt
  rw [ht, List.drop_left', List.take_left']
  · rfl
  · rfl

theorem neighbors_length (c : Coord) : (neighbors c).length ≤ 25 := by
  unfold neighbors
  rw [scheduled_eq]
  have row : ∀ d1 : Int,
      ((offsets.filter (fun d2 => decide (keeps c.coord1 c.coord2 d1 d2))).map
        (fun d2 => Coord.mk (addInt c.coord1 d1) c.dim1 (addInt c.coord2 d2) c.dim2)).length
        ≤ 5 := by
    intro d1
    rw [List.length_map]
    exact List.length_filter_le _ _
  have r1 := row (-2)
  have r2 := row (-1)
  have r3 := row 0
  have r4 := row 1
  have r5 := row 2
  simp only [List.length_flatten, List.map_map]
  rw [show offsets = [-2, -1, 0, 1, 2] from rfl] at r1 r2 r3 r4 r5 ⊢
  simp only [List.map_cons, List.map_nil, List.sum_cons, List.sum_nil, Function.comp_apply]
  omega

theorem weight_start_sum (env : Env) (disk0 : Disk) (l : List Coord) :
    ((l.map (fun d => Visit.mk d PC.start)).map (taskWeight env disk0)).sum = 6 * l.length := by
  induction l with
  | nil => rfl
  | cons a l ih =>
    simp only [List.map_cons, List.sum_cons, ih, List.length_cons]
    simp [taskWeight, pcWeight]
    omega

theorem untried_le (tiles : List String) (tried : Finset String) (a : String) :
    (tiles.filter (fun x => decide (x ∉ insert a tried))).length
      ≤ (tiles.filter (fun x => decide (x ∉ tried))).length := by
  induction tiles with
  | nil => simp
  | cons b l ih =>
    by_cases h1 : b ∉ insert a tried
    · have h2 : b ∉ tried := fun h => h1 (Finset.mem_insert_of_mem h)
      rw [List.filter_cons_of_pos (by simpa using h1), List.filter_cons_of_pos (by simpa using h2)]
      simp only [List.length_cons]
      omega
    · rw [List.filter_cons_of_neg (by simpa using h1)]
      by_cases h2 : b ∉ tried
      · rw [List.filter_cons_of_pos (by simpa using h2)]
        simp only [List.length_cons]
        omega
      · rw [List.filter_cons_of_neg (by simpa using h2)]
        exact ih

theorem untried_lt (tiles : List String) (tried : Finset String) (a : String)
    (ha : a ∈ tiles) (hn : a ∉ tried) :
    (tiles.filter (fun x => decide (x ∉ insert a tried))).length + 1
      ≤ (tiles.filter (fun x => decide (x ∉ tried))).length := by
  induction tiles with
  | nil => simp at ha
  | cons b l ih =>
    by_cases hb : b = a
    · subst hb
      have h1 : ¬ (b ∉ insert b tried) := fun h => h (Finset.mem_insert_self _ _)
      have := untried_le l tried b
      rw [List.filter_cons_of_neg (by simp), List.filter_cons_of_pos (by simpa using hn)]
      simp only [List.length_cons]
      omega
    · have hal : a ∈ l := by
        rcases List.mem_cons.mp ha with h | h
        · exact (hb h.symm).elim
        · exact h
      have := ih hal
      by_cases h2 : b ∉ tried
      · have h1 : b ∉ insert a tried := by
          intro h
          rcases Finset.mem_insert.mp h with h | h
          · exact hb h
          · exact h2 h
        rw [List.filter_cons_of_pos (by simpa using h1),
          List.filter_cons_of_pos (by simpa using h2)]
        simp only [List.length_cons]
        omega
      · have h1 : ¬ (b ∉ insert a tried) := fun h => h (Finset.mem_insert_of_mem
          (not_not.mp h2))
        rw [List.filter_cons_of_neg (by simpa using h1),
          List.filter_cons_of_neg (by simpa using h2)]
        exact this

/-- Every step that is not a blocked wait for a permit lowers the potential. -/
theorem fired_potential (env : Env) (disk0 : Disk) (tiles : List String)
    (hL : ∀ x, tileExists env disk0 x = true → x ∈ tiles) (s : World) (pre : List Visit)
    (c : Coord) (pc : PC) (post : List Visit) (s' : World)
    (ht : s.tasks = pre ++ Visit.mk c pc :: post)
    (hp : pc = PC.waiting → s.permits ≠ 0)
    (he : pc.past = true → tileExists env disk0 c.image = true)
    (hf : Fired env s pre c post pc s') :
    potential env disk0 tiles s' < potential env disk0 tiles s := by
  unfold potential
  rw [ht]
  cases hf with
  | seen hin =>
    simp [taskWeight, pcWeight]
  | fresh hnin =>
    simp only [List.map_append, List.map_cons, List.sum_append, List.sum_cons]
    by_cases hx : tileExists env disk0 c.image = true
    · have := untried_lt tiles s.tried c.image (hL _ hx) hnin
      generalize (tiles.filter (fun x => decide (x ∉ insert c.image s.tried))).length = A
        at this ⊢
      generalize (tiles.filter (fun x => decide (x ∉ s.tried))).length = B at this ⊢
      simp [taskWeight, pcWeight, hx]
      omega
    · have := untried_le tiles s.tried c.image
      generalize (tiles.filter (fun x => decide (x ∉ insert c.image s.tried))).length = A
        at this ⊢
      generalize (tiles.filter (fun x => decide (x ∉ s.tried))).length = B at this ⊢
      simp [taskWeight, pcWeight, hx]
      omega
  | cached hd =>
    simp [taskWeight, pcWeight]
  | localSkip hd hl =>
    simp [taskWeight, pcWeight]
  | queue hd hl =>
    simp [taskWeight, pcWeight]
  | blocked h0 =>
    exact (hp rfl h0).elim
  | acquire h0 =>
    simp [taskWeight, pcWeight]
  | fetchFail hk =>
    simp [taskWeight, pcWeight]
  | copyFail code body k hk hg h2 hcr =>
    simp [taskWeight, pcWeight]
  | fetched code body hk hg h2 hcr =>
    simp [taskWeight, pcWeight]
  | mark held =>
    simp [taskWeight, pcWeight]
  | spawn held =>
    have hx := he rfl
    have hn := neighbors_length c
    simp only [List.map_append, List.map_cons, List.sum_append, List.sum_cons,
      weight_start_sum]
    simp [taskWeight, pcWeight, hx]
    omega

theorem exists_enabled (s : World) (hperm : InvPermits s) (hne : s.tasks ≠ []) :
    ∃ pre c pc post, s.tasks = pre ++ Visit.mk c pc :: post
      ∧ (pc = PC.waiting → s.permits ≠ 0) := by
  by_cases hp : s.permits = 0
  · unfold InvPermits holders at hperm
    have hpos : 0 < (s.tasks.filter (fun t => t.pc.holds)).length := by omega
    obtain ⟨t, htm⟩ := List.exists_mem_of_length_pos hpos
    obtain ⟨hmem, hh⟩ := List.mem_filter.mp htm
    obtain ⟨pre, post, hsplit⟩ := List.append_of_mem hmem
    obtain ⟨c, pc⟩ := t
    refine ⟨pre, c, pc, post, hsplit, fun hw => ?_⟩
    rw [hw] at hh
    exact (Bool.false_ne_true hh).elim
  · cases hts : s.tasks with
    | nil => exact (hne hts).elim
    | cons t rest =>
      obtain ⟨c, pc⟩ := t
      exact ⟨[], c, pc, rest, rfl, fun _ => hp⟩

theorem can_complete (env : Env) (disk0 : Disk) (seeds : List Coord) (tiles : List String)
    (hL : ∀ x, tileExists env disk0 x = true → x ∈ tiles) :
    ∀ (n : Nat) (sched : List Nat),
      potential env disk0 tiles (run env (init disk0 seeds) sched) ≤ n →
      ∃ more, Complete (run env (init disk0 seeds) (sched ++ more)) := by
  intro n
  induction n with
  | zero =>
    intro sched hpot
    by_cases hc : (run env (init disk0 seeds) sched).tasks = []
    · exact ⟨[], by rw [List.append_nil]; exact hc⟩
    · obtain ⟨pre, c, pc, post, ht, hp⟩ := exists_enabled _ (invPermits_run env disk0 seeds sched) hc
      have h7 := (base_invariants env disk0 seeds sched).2.2.1.2.2.2.2.2.2.1
      have he : pc.past = true → tileExists env disk0 c.image = true :=
        h7 (Visit.mk c pc) (by rw [ht]; simp)
      have := fired_potential env disk0 tiles hL _ pre c pc post _ ht hp he
        (downloadStep_fired env _ pre c pc post)
      omega
  | succ n ih =>
    intro sched hpot
    by_cases hc : (run env (init disk0 seeds) sched).tasks = []
    · exact ⟨[], by rw [List.append_nil]; exact hc⟩
    · obtain ⟨pre, c, pc, post, ht, hp⟩ := exists_enabled _ (invPermits_run env disk0 seeds sched) hc
      have h7 := (base_invariants env disk0 seeds sched).2.2.1.2.2.2.2.2.2.1
      have he : pc.past = true → tileExists env disk0 c.image = true :=
        h7 (Visit.mk c pc) (by rw [ht]; simp)
      have hlt := fired_potential env disk0 tiles hL _ pre c pc post _ ht hp he
        (downloadStep_fired env _ pre c pc post)
      have hrun : run env (init disk0 seeds) (sched ++ [pre.length])
          = downloadStep env (run env (init disk0 seeds) sched) pre (Visit.mk c pc) post := by
        rw [run_append]
        exact stepAt_at env _ pre (Visit.mk c pc) post ht
      obtain ⟨more, hm⟩ := ih (sched ++ [pre.length]) (by rw [hrun]; omega)
      refine ⟨pre.length :: more, ?_⟩
      rw [List.append_assoc] at hm
      exact hm

/-- When the tiles that exist are finitely many, every run can be continued to a complete
run. -/
theorem run_can_complete (env : Env) (disk0 : Disk) (seeds : List Coord) (tiles : List String)
    (hL : ∀ x, tileExists env disk0 x = true → x ∈ tiles) (sched : List Nat) :
    ∃ more, Complete (run env (init disk0 seeds) (sched ++ more)) :=
  can_complete env disk0 seeds tiles hL _ sched (Nat.le_refl _)

theorem serverWith_exists (tiles : List String) (x : String)
    (h : tileExists (serverWith tiles) emptyDisk x = true) : x ∈ tiles := by
  by_cases hx : x ∈ tiles
  · exact hx
  · simp [tileExists, fetchOk, serverWith, emptyDisk, hx] at h

/-! ## The contents of the files -/

theorem invContent_step (env : Env) (s : World) (pre : List Visit) (c : Coord) (pc : PC)
    (post : List Visit) (s' : World) (h : InvContent env s) (ho : InvOnce s)
    (ht : s.tasks = pre ++ Visit.mk c pc :: post)
    (hf : Fired env s pre c post pc s') : InvContent env s' := by
  have hnr : pc = PC.fetching → c.image ∉ s.requests :=
    fun hp => inflight_not_requested s ho (Visit.mk c pc) (by rw [ht]; simp)
      (Or.inr (Or.inr hp))
  cases hf with
  | fetchFail hk =>
    intro x hx hok
    rcases List.mem_append.mp hx with hx | hx
    · exact h x hx hok
    · rw [List.mem_singleton.mp hx, hk] at hok
      exact (Bool.false_ne_true hok).elim
  | copyFail code body k hk hg h2 hcr =>
    intro x hx hok
    rcases List.mem_append.mp hx with hx | hx
    · obtain ⟨cd, bd, e1, e2⟩ := h x hx hok
      have hne : x ≠ c.image := fun e => hnr rfl (e ▸ hx)
      exact ⟨cd, bd, e1, by simp only [writeFile, if_neg hne]; exact e2⟩
    · rw [List.mem_singleton.mp hx, hk] at hok
      exact (Bool.false_ne_true hok).elim
  | fetched code body hk hg h2 hcr =>
    intro x hx hok
    rcases List.mem_append.mp hx with hx | hx
    · obtain ⟨cd, bd, e1, e2⟩ := h x hx hok
      have hne : x ≠ c.image := fun e => hnr rfl (e ▸ hx)
      exact ⟨cd, bd, e1, by simp only [writeFile, if_neg hne]; exact e2⟩
    · rw [List.mem_singleton.mp hx]
      exact ⟨code, body, hg, by simp only [writeFile, if_true]⟩
  | _ => exact h

theorem content_invariant (env : Env) (disk0 : Disk) (seeds : List Coord) (sched : List Nat) :
    InvContent env (run env (init disk0 seeds) sched) := by
  have hb : ∀ s, (InvOnce s ∧ InvContent env s) → InvContent env s := fun _ h => h.2
  apply hb
  apply run_invariant env (fun s => InvOnce s ∧ InvContent env s)
  · intro s pre c pc post s' h ht hf
    exact ⟨invOnce_step env s pre c pc post s' h.1 ht hf,
      invContent_step env s pre c pc post s' h.2 h.1 ht hf⟩
  · refine ⟨invOnce_init _ _, ?_⟩
    intro x hx
    simp [init] at hx

theorem fetchOk_status (env : Env) (x : String) (code : Nat) (body : List Nat)
    (hg : env.get x = Resp.status code body) (hok : fetchOk env x = true) : code / 100 = 2 := by
  unfold fetchOk at hok
  rw [hg] at hok
  simp only [Bool.and_eq_true, decide_eq_true_eq] at hok
  exact hok.1.1

/-- The file of a found name is the file the directory had at the start, or the whole body
of a 2xx response. -/
theorem found_content (env : Env) (disk0 : Disk) (seeds : List Coord) (sched : List Nat)
    (x : String) (hx : x ∈ (run env (init disk0 seeds) sched).found) :
    ∃ bytes, (run env (init disk0 seeds) sched).disk x = some bytes
      ∧ (disk0 x = some bytes ∨ ∃ code, env.get x = Resp.status code bytes ∧ code / 100 = 2) := by
  obtain ⟨_, _, hd, _, hsound⟩ := base_invariants env disk0 seeds sched
  obtain ⟨h1, h2, _, _, _, _, _, _, _, h10, _, _⟩ := hd
  have hcont := content_invariant env disk0 seeds sched
  cases h0 : disk0 x with
  | some b =>
    have hnr : x ∉ (run env (init disk0 seeds) sched).requests := by
      intro hr
      have := h2 x hr
      rw [h0] at this
      exact Bool.false_ne_true this.symm
    exact ⟨b, by rw [h1 x hnr, h0], Or.inl rfl⟩
  | none =>
    have hr := h10 x hx (by rw [h0]; rfl)
    obtain ⟨c, hreach, rfl⟩ := hsound.2.1 x hx
    have he := reach_exists env disk0 seeds c hreach
    have hok : fetchOk env c.image = true := by
      unfold tileExists at he
      rw [h0] at he
      simp only [Option.isSome_none, Bool.false_or, Bool.and_eq_true] at he
      exact he.2
    obtain ⟨code, body, hg, hdk⟩ := hcont c.image hr hok
    exact ⟨body, hdk, Or.inr ⟨code, hg, fetchOk_status env c.image code body hg hok⟩⟩

theorem serverWith_body (tiles : List String) (y : String) (code : Nat) (b : List Nat)
    (h : (serverWith tiles).get y = Resp.status code b) (h2 : code / 100 = 2) :
    1 ≤ b.length := by
  by_cases hy : y ∈ tiles
  · simp only [serverWith, if_pos hy, Resp.status.injEq] at h
    rw [← h.2]
    decide
  · simp only [serverWith, if_neg hy, Resp.status.injEq] at h
    rw [← h.1] at h2
    exact absurd h2 (by decide)

/-! ## The claims -/

/-- C1 (counterexample). At the largest `int` the sums `coord1 + 1` and `coord1 + 2` wrap
below 1: from `(maxInt, n, 3, e)`, whose magnitudes are both at least 3, `download`
schedules 14 visits and not the 24 of the row-major list. -/
theorem download_schedule_wraps_at_maxInt :
    (3 : Int) ≤ maxInt ∧ (scheduled maxInt "n" 3 "e").length = 14
      ∧ (neighborsSpec maxInt "n" 3 "e").length = 24
      ∧ scheduled maxInt "n" 3 "e" ≠ neighborsSpec maxInt "n" 3 "e" := by
  decide

/-- C1 (amended). For every coordinate whose magnitudes are at least 2 away from both ends
of the `int` range, the visits `download` schedules after confirming the tile are, in
order, the coordinates `(m+d1, ns, n+d2, ew)` for `(d1, d2)` in row-major order over
`{-2,..,2} x {-2,..,2}` with `(d1, d2) ≠ (0, 0)`, `m+d1 ≥ 1` and `n+d2 ≥ 1`; the labels are
those of the coordinate; there are 24 of them when `m ≥ 3` and `n ≥ 3`; and for `m = 1`
every one has its first magnitude in `{1, 2, 3}`. -/
theorem download_schedule_row_major (m n : Int) (ns ew : String)
    (hm1 : minInt + 2 ≤ m) (hm2 : m ≤ maxInt - 2) (hn1 : minInt + 2 ≤ n) (hn2 : n ≤ maxInt - 2) :
    scheduled m ns n ew = neighborsSpec m ns n ew
      ∧ (∀ c ∈ scheduled m ns n ew, c.dim1 = ns ∧ c.dim2 = ew)
      ∧ (3 ≤ m → 3 ≤ n → (scheduled m ns n ew).length = 24)
      ∧ (m = 1 → ∀ c ∈ scheduled m ns n ew, c.coord1 = 1 ∨ c.coord1 = 2 ∨ c.coord1 = 3) := by
  have e := scheduled_eq_spec m n ns ew hm1 hm2 hn1 hn2
  refine ⟨e, fun c hc => (mem_scheduled m ns n ew c hc).2.2, fun h3 h3' => ?_, fun h1 c hc => ?_⟩
  · rw [e]
    exact spec_length_interior m n ns ew h3 h3'
  · rw [e, h1] at hc
    exact spec_first_row n ns ew c hc

/-- C1 (witness): the schedule from `(3, s, 7, e)`. -/
theorem download_schedule_row_major_witness :
    (minInt + 2 ≤ 3 ∧ (3 : Int) ≤ maxInt - 2 ∧ minInt + 2 ≤ 7 ∧ (7 : Int) ≤ maxInt - 2)
      ∧ (scheduled 3 "s" 7 "e" = neighborsSpec 3 "s" 7 "e"
        ∧ (∀ c ∈ scheduled 3 "s" 7 "e", c.dim1 = "s" ∧ c.dim2 = "e")
        ∧ ((3 : Int) ≤ 3 → (3 : Int) ≤ 7 → (scheduled 3 "s" 7 "e").length = 24)
        ∧ ((3 : Int) = 1 → ∀ c ∈ scheduled 3 "s" 7 "e",
            c.coord1 = 1 ∨ c.coord1 = 2 ∨ c.coord1 = 3)) :=
  ⟨by decide, download_schedule_row_major 3 7 "s" "e" (by decide) (by decide) (by decide)
    (by decide)⟩

/-- C2. `name` is injective on the coordinates of the data model: for magnitudes of at
least 1 and labels `n`/`s` and `e`/`w`, equal names come from equal coordinates. -/
theorem name_injective (m n m' n' : Int) (ns ew ns' ew' : String)
    (hm : 1 ≤ m) (hn : 1 ≤ n) (hm' : 1 ≤ m') (hn' : 1 ≤ n')
    (hns : ns = "n" ∨ ns = "s") (hew : ew = "e" ∨ ew = "w")
    (hns' : ns' = "n" ∨ ns' = "s") (hew' : ew' = "e" ∨ ew' = "w")
    (h : name m ns n ew = name m' ns' n' ew') :
    (m, ns, n, ew) = (m', ns', n', ew') := by
  obtain ⟨a, b, c, d⟩ := name_inj m n m' n' ns ew ns' ew' hm hn hm' hn' hns hew hns' hew' h
  rw [a, b, c, d]

/-- C2 (witness): the name of `(3, s, 7, e)` is `3s7e.png`, and the theorem at that
coordinate. -/
theorem name_injective_witness :
    name 3 "s" 7 "e" = "3s7e.png"
      ∧ ((3 : Int), "s", (7 : Int), "e") = ((3 : Int), "s", (7 : Int), "e") :=
  ⟨by decide, name_injective 3 7 3 7 "s" "e" "s" "e" (by decide) (by decide) (by decide)
    (by decide) (by decide) (by decide) (by decide) (by decide) rfl⟩

/-- C3. The result of the crawl does not depend on the schedule.  Let the seeds be
coordinates of the data model, let no file operation fail, and let the tiles that exist be
finitely many (all in `tiles`); a tile exists when its file is in the directory at the start
or, unless the run is `-local`, the server answers 2xx for it.  Then every run can be
continued to a complete run; every complete run ends with `found` holding the names of the
coordinates reachable from a seed through tiles that exist, and `tried` the names of the
seeds and of the neighbours of those coordinates; so two complete runs end with the same
sets. -/
theorem crawl_result_independent_of_schedule (env : Env) (disk0 : Disk) (seeds : List Coord)
    (tiles : List String) (hs : ∀ c ∈ seeds, Valid c) (hio : NoFileErrors env)
    (hE : ∀ x, tileExists env disk0 x = true → x ∈ tiles) :
    (∀ x, tileExists env disk0 x
        = ((disk0 x).isSome || (!env.isLocal && onServer env x)))
      ∧ (∀ sched, ∃ more, Complete (run env (init disk0 seeds) (sched ++ more)))
      ∧ (∀ a, Complete (run env (init disk0 seeds) a) →
          (∀ x, x ∈ (run env (init disk0 seeds) a).found ↔
            ∃ c, Reach env disk0 seeds c ∧ x = c.image)
          ∧ (∀ x, x ∈ (run env (init disk0 seeds) a).tried ↔
            ((∃ c ∈ seeds, x = c.image) ∨
              ∃ p d, Reach env disk0 seeds p ∧ d ∈ neighbors p ∧ x = d.image)))
      ∧ (∀ a b, Complete (run env (init disk0 seeds) a) →
          Complete (run env (init disk0 seeds) b) →
          (run env (init disk0 seeds) a).found = (run env (init disk0 seeds) b).found
          ∧ (run env (init disk0 seeds) a).tried = (run env (init disk0 seeds) b).tried) :=
  ⟨tileExists_noFileErrors env disk0 hio,
    run_can_complete env disk0 seeds tiles hE,
    fun a ha => complete_sets env disk0 seeds a hs ha,
    fun a b ha hb => complete_runs_agree env disk0 seeds hs a b ha hb⟩

/-- C3 (witness): the linear chain.  The server has `1n1e.png` to `1n5e.png`, the seed is
`(1, n, 1, e)`; two schedules are complete, request the names in different orders and end
with the same sets; all five names are found, `1n6e.png` and `1n7e.png` are tried and not
found, `1n8e.png` is not tried. -/
theorem crawl_linear_chain_witness :
    ((∀ c ∈ [seed11], Valid c)
      ∧ Complete (run (serverWith chainTiles) (init emptyDisk [seed11]) (firstAlways 135))
      ∧ Complete (run (serverWith chainTiles) (init emptyDisk [seed11]) sixthFirst)
      ∧ (run (serverWith chainTiles) (init emptyDisk [seed11]) (firstAlways 135)).requests
        ≠ (run (serverWith chainTiles) (init emptyDisk [seed11]) sixthFirst).requests)
    ∧ ((run (serverWith chainTiles) (init emptyDisk [seed11]) (firstAlways 135)).found
        = {"1n1e.png", "1n2e.png", "1n3e.png", "1n4e.png", "1n5e.png"}
      ∧ "1n6e.png" ∈ (run (serverWith chainTiles) (init emptyDisk [seed11])
          (firstAlways 135)).tried
      ∧ "1n7e.png" ∈ (run (serverWith chainTiles) (init emptyDisk [seed11])
          (firstAlways 135)).tried
      ∧ "1n6e.png" ∉ (run (serverWith chainTiles) (init emptyDisk [seed11])
          (firstAlways 135)).found
      ∧ "1n7e.png" ∉ (run (serverWith chainTiles) (init emptyDisk [seed11])
          (firstAlways 135)).found
      ∧ "1n8e.png" ∉ (run (serverWith chainTiles) (init emptyDisk [seed11])
          (firstAlways 135)).tried)
    ∧ ((run (serverWith chainTiles) (init emptyDisk [seed11]) (firstAlways 135)).found
        = (run (serverWith chainTiles) (init emptyDisk [seed11]) sixthFirst).found
      ∧ (run (serverWith chainTiles) (init emptyDisk [seed11]) (firstAlways 135)).tried
        = (run (serverWith chainTiles) (init emptyDisk [seed11]) sixthFirst).tried) :=
  ⟨by decide, by decide,
    (crawl_result_independent_of_schedule (serverWith chainTiles) emptyDisk [seed11]
      chainTiles (by decide) (fun _ => ⟨rfl, rfl⟩) (serverWith_exists chainTiles)).2.2.2
      (firstAlways 135) sixthFirst (by decide) (by decide)⟩

/-- C4. `found` is a subset of `tried` in every state of a run: both start empty; after any
schedule every found name is tried; and whatever steps follow, neither set loses a name. -/
theorem found_subset_tried (env : Env) (disk0 : Disk) (seeds : List Coord)
    (sched more : List Nat) :
    (init disk0 seeds).tried = ∅ ∧ (init disk0 seeds).found = ∅
      ∧ (run env (init disk0 seeds) sched).found ⊆ (run env (init disk0 seeds) sched).tried
      ∧ (run env (init disk0 seeds) sched).tried
          ⊆ (run env (init disk0 seeds) (sched ++ more)).tried
      ∧ (run env (init disk0 seeds) sched).found
          ⊆ (run env (init disk0 seeds) (sched ++ more)).found := by
  have hb := base_invariants env disk0 seeds sched
  have hm := run_mono env more (run env (init disk0 seeds) sched)
  rw [run_append]
  exact ⟨rfl, rfl, hb.1.1, hm.1, hm.2.1⟩

/-- C5. No tile name is requested from the network twice in a run: for every server, every
directory, every seed list and every schedule, the log of the `http.Get` calls holds no
name twice. -/
theorem no_name_requested_twice (env : Env) (disk0 : Disk) (seeds : List Coord)
    (sched : List Nat) : (run env (init disk0 seeds) sched).requests.Nodup := by
  have h := (base_invariants env disk0 seeds sched).2.1.1
  exact (List.nodup_append.mp h).2.1

/-- C6. When every seed has magnitudes of at least 1, every name that enters `tried` is the
name of a coordinate with magnitudes of at least 1 whose pair of labels is that of a
seed. -/
theorem tried_names_positive_and_labelled (env : Env) (disk0 : Disk) (seeds : List Coord)
    (sched : List Nat) (hs : ∀ c ∈ seeds, 1 ≤ c.coord1 ∧ 1 ≤ c.coord2) :
    ∀ x ∈ (run env (init disk0 seeds) sched).tried,
      ∃ c : Coord, 1 ≤ c.coord1 ∧ 1 ≤ c.coord2
        ∧ (∃ sd ∈ seeds, sd.dim1 = c.dim1 ∧ sd.dim2 = c.dim2)
        ∧ x = name c.coord1 c.dim1 c.coord2 c.dim2 := by
  intro x hx
  obtain ⟨c, ⟨h1, h2, h3⟩, rfl⟩ := (labels_invariant env disk0 seeds sched hs).2 x hx
  exact ⟨c, h1, h2, h3, rfl⟩

/-- C6 (witness): the seeds of `main`, against a server that has the four tiles `main`
expects, after forty steps. -/
theorem tried_names_positive_and_labelled_witness :
    (∀ c ∈ mainSeeds, 1 ≤ c.coord1 ∧ 1 ≤ c.coord2)
      ∧ ∀ x ∈ (run (serverWith ["1n1e.png", "1n1w.png", "3s7e.png", "15s1w.png"])
            (init emptyDisk mainSeeds) (firstAlways 40)).tried,
          ∃ c : Coord, 1 ≤ c.coord1 ∧ 1 ≤ c.coord2
            ∧ (∃ sd ∈ mainSeeds, sd.dim1 = c.dim1 ∧ sd.dim2 = c.dim2)
            ∧ x = name c.coord1 c.dim1 c.coord2 c.dim2 :=
  ⟨by decide, tried_names_positive_and_labelled
    (serverWith ["1n1e.png", "1n1w.png", "3s7e.png", "15s1w.png"]) emptyDisk mainSeeds
    (firstAlways 40) (by decide)⟩

/-- C7 (counterexample). Isolated seed: the server has only `1n1e.png`, the directory is
empty, the seed is `(1, n, 1, e)`.  The run is complete and `tried` holds 9 names, so it is
not `1n1e.png` together with 24 further names. -/
theorem isolated_seed_tried_has_nine_names :
    Complete (run (serverWith ["1n1e.png"]) (init emptyDisk [seed11]) (firstAlways 38))
      ∧ (run (serverWith ["1n1e.png"]) (init emptyDisk [seed11]) (firstAlways 38)).tried.card = 9
      ∧ ¬ ∃ others : Finset String, others.card = 24 ∧ "1n1e.png" ∉ others
          ∧ (run (serverWith ["1n1e.png"]) (init emptyDisk [seed11]) (firstAlways 38)).tried
            = insert "1n1e.png" others := by
  refine ⟨by decide, by decide, ?_⟩
  rintro ⟨others, h24, hn, he⟩
  have h9 : (run (serverWith ["1n1e.png"]) (init emptyDisk [seed11])
      (firstAlways 38)).tried.card = 9 := by decide
  rw [he, Finset.card_insert_of_not_mem hn, h24] at h9
  omega

/-- C7 (amended). Isolated seed: when the server has only `1n1e.png`, the directory starts
empty and the only seed is `(1, n, 1, e)`, every run can be continued to a complete run, and
every complete run ends with `found` holding `1n1e.png` alone and `tried` holding `1n1e.png`
and the 8 names of its neighbours (first and second magnitude in `{1, 2, 3}`), and has
requested each tried name exactly once. -/
theorem isolated_seed_result (sched : List Nat) :
    (∃ more, Complete (run (serverWith ["1n1e.png"]) (init emptyDisk [seed11]) (sched ++ more)))
      ∧ (Complete (run (serverWith ["1n1e.png"]) (init emptyDisk [seed11]) sched) →
        (run (serverWith ["1n1e.png"]) (init emptyDisk [seed11]) sched).found = {"1n1e.png"}
        ∧ (run (serverWith ["1n1e.png"]) (init emptyDisk [seed11]) sched).tried
          = {"1n1e.png", "1n2e.png", "1n3e.png", "2n1e.png", "2n2e.png", "2n3e.png",
              "3n1e.png", "3n2e.png", "3n3e.png"}
        ∧ (run (serverWith ["1n1e.png"]) (init emptyDisk [seed11]) sched).requests.Nodup
        ∧ (∀ x, x ∈ (run (serverWith ["1n1e.png"]) (init emptyDisk [seed11]) sched).requests
            ↔ x ∈ (run (serverWith ["1n1e.png"]) (init emptyDisk [seed11]) sched).tried)) := by
  refine ⟨run_can_complete (serverWith ["1n1e.png"]) emptyDisk [seed11] ["1n1e.png"]
    (serverWith_exists ["1n1e.png"]) sched, fun hc => ?_⟩
  have h0 : Complete (run (serverWith ["1n1e.png"]) (init emptyDisk [seed11])
      (firstAlways 38)) := by decide
  obtain ⟨e1, e2⟩ := complete_runs_agree (serverWith ["1n1e.png"]) emptyDisk [seed11]
    (by decide) sched (firstAlways 38) hc h0
  have hn := (base_invariants (serverWith ["1n1e.png"]) emptyDisk [seed11] sched).2.1.1
  refine ⟨?_, ?_, (List.nodup_append.mp hn).2.1, fun x => ?_⟩
  · rw [e1]
    decide
  · rw [e2]
    decide
  · rw [complete_requests (serverWith ["1n1e.png"]) emptyDisk [seed11] sched hc x]
    exact ⟨fun h => h.1, fun h => ⟨h, rfl, rfl⟩⟩

/-- C7 (witness): the run that always lets the first live goroutine step. -/
theorem isolated_seed_result_witness :
    Complete (run (serverWith ["1n1e.png"]) (init emptyDisk [seed11]) (firstAlways 38))
      ∧ (run (serverWith ["1n1e.png"]) (init emptyDisk [seed11]) (firstAlways 38)).found
        = {"1n1e.png"}
      ∧ (run (serverWith ["1n1e.png"]) (init emptyDisk [seed11]) (firstAlways 38)).tried
        = {"1n1e.png", "1n2e.png", "1n3e.png", "2n1e.png", "2n2e.png", "2n3e.png",
            "3n1e.png", "3n2e.png", "3n3e.png"}
      ∧ (run (serverWith ["1n1e.png"]) (init emptyDisk [seed11]) (firstAlways 38)).requests.Nodup
      ∧ (∀ x, x ∈ (run (serverWith ["1n1e.png"]) (init emptyDisk [seed11])
            (firstAlways 38)).requests
          ↔ x ∈ (run (serverWith ["1n1e.png"]) (init emptyDisk [seed11])
            (firstAlways 38)).tried) :=
  ⟨by decide, (isolated_seed_result (firstAlways 38)).2 (by decide)⟩

/-- C8 (counterexample). A second run requests again: the server has only `1n1e.png`, the
first run starts with an empty directory and is complete; the second run starts with the
directory the first one left, is complete, and requests the 8 names that were tried and
not found. -/
theorem second_run_requests_again :
    Complete (run (serverWith ["1n1e.png"]) (init emptyDisk [seed11]) (firstAlways 38))
      ∧ Complete (run (serverWith ["1n1e.png"])
          (init (run (serverWith ["1n1e.png"]) (init emptyDisk [seed11])
            (firstAlways 38)).disk [seed11]) (firstAlways 36))
      ∧ (run (serverWith ["1n1e.png"])
          (init (run (serverWith ["1n1e.png"]) (init emptyDisk [seed11])
            (firstAlways 38)).disk [seed11]) (firstAlways 36)).requests
        = ["1n2e.png", "1n3e.png", "2n1e.png", "2n2e.png", "2n3e.png", "3n1e.png",
            "3n2e.png", "3n3e.png"] := by
  decide

/-- C8 (amended). Running the crawl twice against the same server, with seeds of the data
model, no failing file operation and finitely many tiles that exist (all in `tiles`), the
second run starting with empty sets and with the directory as the first complete run left
it: the second run can always be continued to a complete run, and every complete second run
ends with the same `tried` and `found` as the first, requests no name twice, and requests
exactly the names that the first run tried and did not find (none when the run is
`-local`). -/
theorem second_run_same_sets (env : Env) (disk0 : Disk) (seeds : List Coord)
    (tiles : List String) (hs : ∀ c ∈ seeds, Valid c) (hio : NoFileErrors env)
    (hE : ∀ x, tileExists env disk0 x = true → x ∈ tiles) (a : List Nat)
    (ha : Complete (run env (init disk0 seeds) a)) :
    (∀ sched, ∃ more,
        Complete (run env (init (run env (init disk0 seeds) a).disk seeds) (sched ++ more)))
      ∧ (∀ b, Complete (run env (init (run env (init disk0 seeds) a).disk seeds) b) →
        (run env (init (run env (init disk0 seeds) a).disk seeds) b).tried
            = (run env (init disk0 seeds) a).tried
          ∧ (run env (init (run env (init disk0 seeds) a).disk seeds) b).found
            = (run env (init disk0 seeds) a).found
          ∧ (run env (init (run env (init disk0 seeds) a).disk seeds) b).requests.Nodup
          ∧ (∀ x, x ∈ (run env (init (run env (init disk0 seeds) a).disk seeds) b).requests ↔
              (x ∈ (run env (init disk0 seeds) a).tried
                ∧ x ∉ (run env (init disk0 seeds) a).found ∧ env.isLocal = false))) := by
  refine ⟨run_can_complete env _ seeds tiles (fun x hx => hE x ?_), fun b hb => ?_⟩
  · rw [← tileExists_after_run env disk0 seeds hio a x]
    exact hx
  obtain ⟨e1, e2⟩ := crawl_twice_sets env disk0 seeds hs hio a b ha hb
  have hn := (base_invariants env (run env (init disk0 seeds) a).disk seeds b).2.1.1
  have h9 := (base_invariants env disk0 seeds a).2.2.1.2.2.2.2.2.2.2.2.1
  obtain ⟨_, _, hd2, hr2, _⟩ := base_invariants env (run env (init disk0 seeds) a).disk seeds b
  refine ⟨e1, e2, (List.nodup_append.mp hn).2.1, fun x => ?_⟩
  rw [complete_requests env (run env (init disk0 seeds) a).disk seeds b hb x, e1]
  constructor
  · rintro ⟨ht, h0, hl⟩
    refine ⟨ht, fun hf => ?_, hl⟩
    have := h9 x hf
    rw [h0] at this
    exact Bool.false_ne_true this
  · rintro ⟨ht, hnf, hl⟩
    refine ⟨ht, ?_, hl⟩
    cases h0 : ((run env (init disk0 seeds) a).disk x).isSome
    · rfl
    · exfalso
      have hc2 := hb
      unfold Complete at hc2
      have ht2 : x ∈ (run env (init (run env (init disk0 seeds) a).disk seeds) b).tried := by
        rw [e1]; exact ht
      rcases hr2 x ht2 with ⟨t, htm, _⟩ | hf | hq | hloc
      · rw [hc2] at htm
        simp at htm
      · rw [e2] at hf
        exact hnf hf
      · have := hd2.2.1 x hq
        rw [h0] at this
        exact Bool.false_ne_true this.symm
      · rw [hl] at hloc
        exact Bool.false_ne_true hloc

/-- C8 (witness): the isolated seed, run twice. -/
theorem second_run_same_sets_witness :
    ((∀ c ∈ [seed11], Valid c)
      ∧ Complete (run (serverWith ["1n1e.png"]) (init emptyDisk [seed11]) (firstAlways 38))
      ∧ Complete (run (serverWith ["1n1e.png"])
          (init (run (serverWith ["1n1e.png"]) (init emptyDisk [seed11])
            (firstAlways 38)).disk [seed11]) (firstAlways 36)))
    ∧ ((run (serverWith ["1n1e.png"])
          (init (run (serverWith ["1n1e.png"]) (init emptyDisk [seed11])
            (firstAlways 38)).disk [seed11]) (firstAlways 36)).tried
        = (run (serverWith ["1n1e.png"]) (init emptyDisk [seed11]) (firstAlways 38)).tried
      ∧ (run (serverWith ["1n1e.png"])
          (init (run (serverWith ["1n1e.png"]) (init emptyDisk [seed11])
            (firstAlways 38)).disk [seed11]) (firstAlways 36)).found
        = (run (serverWith ["1n1e.png"]) (init emptyDisk [seed11]) (firstAlways 38)).found
      ∧ (run (serverWith ["1n1e.png"])
          (init (run (serverWith ["1n1e.png"]) (init emptyDisk [seed11])
            (firstAlways 38)).disk [seed11]) (firstAlways 36)).requests.Nodup
      ∧ (∀ x, x ∈ (run (serverWith ["1n1e.png"])
            (init (run (serverWith ["1n1e.png"]) (init emptyDisk [seed11])
              (firstAlways 38)).disk [seed11]) (firstAlways 36)).requests ↔
          (x ∈ (run (serverWith ["1n1e.png"]) (init emptyDisk [seed11])
              (firstAlways 38)).tried
            ∧ x ∉ (run (serverWith ["1n1e.png"]) (init emptyDisk [seed11])
              (firstAlways 38)).found
            ∧ (serverWith ["1n1e.png"]).isLocal = false))) :=
  ⟨by decide, (second_run_same_sets (serverWith ["1n1e.png"]) emptyDisk [seed11] ["1n1e.png"]
    (by decide) (fun _ => ⟨rfl, rfl⟩) (serverWith_exists ["1n1e.png"]) (firstAlways 38)
    (by decide)).2 (firstAlways 36) (by decide)⟩

/-- C9 (counterexample). The cell of a found tile: with `1n1e.png` found, the text written
for row 1, column 1 is `  <td><img src="1n1e.png" /></td> <!-- 1 (n) 1 (e) -->` and a line
feed, in which `<td><img src="1n1e.png"/></td>` does not occur (the tag is closed by ` />`
after a space). -/
theorem found_cell_markup_differs :
    renderCell {"1n1e.png"} {"1n1e.png"} 1 "n" 1 "e" ""
        = "  <td><img src=\"1n1e.png\" /></td> <!-- 1 (n) 1 (e) -->\n"
      ∧ ¬ ("<td><img src=\"1n1e.png\"/></td>".data
          <:+: (renderCell {"1n1e.png"} {"1n1e.png"} 1 "n" 1 "e" "").data) := by
  decide

/-- C9 (amended). The table written by `main` is the concatenation, for the rows `r` from 50
down to -50 other than 0, of an opening line, the cells of the columns `c` from -50 to 50
other than 0, and a closing line; there is no row for `r = 0` and no cell for `c = 0`.  With
`ns` = `n` if `r > 0` else `s`, `ew` = `e` if `c > 0` else `w` and `nm` the name of
`(|r|, ns, |c|, ew)`, the cell is two spaces and `<td>`, then `<img src="nm" />` if `nm` is
found, else `<img src="pl" />` with `pl` the name of `(11, ns, 11, ew)` if `nm` is tried, else
`&nbsp;`, then `</td>` and a comment with `r`, `ns`, `c` and `ew`. -/
theorem index_table_cells (fnd tried : Finset String) :
    renderTable fnd tried ""
        = ((rowRange.filter (fun r => decide (r ≠ 0))).map (fun r =>
            "  <tr> <!-- row " ++ fmtD r ++ " -->\n"
              ++ ((colRange.filter (fun c => decide (c ≠ 0))).map
                    (cellText fnd tried r)).foldr (fun a b => a ++ b) ""
              ++ "  </tr>\n")).foldr (fun a b => a ++ b) ""
      ∧ (∀ r : Int, r ∈ rowRange.filter (fun r => decide (r ≠ 0)) ↔ (-50 ≤ r ∧ r ≤ 50 ∧ r ≠ 0))
      ∧ (∀ c : Int, c ∈ colRange.filter (fun c => decide (c ≠ 0)) ↔ (-50 ≤ c ∧ c ≤ 50 ∧ c ≠ 0))
      ∧ (∀ r c : Int, cellText fnd tried r c =
          "  <td>" ++
            ((if name (r.natAbs : Int) (if r > 0 then "n" else "s") (c.natAbs : Int)
                  (if c > 0 then "e" else "w") ∈ fnd then
                "<img src=" ++ fmtQ (name (r.natAbs : Int) (if r > 0 then "n" else "s")
                  (c.natAbs : Int) (if c > 0 then "e" else "w")) ++ " />"
              else if name (r.natAbs : Int) (if r > 0 then "n" else "s") (c.natAbs : Int)
                  (if c > 0 then "e" else "w") ∈ tried then
                "<img src=" ++ fmtQ (name 11 (if r > 0 then "n" else "s") 11
                  (if c > 0 then "e" else "w")) ++ " />"
              else "&nbsp;") ++
            ("</td> <!-- " ++ fmtD r ++ " (" ++ (if r > 0 then "n" else "s") ++ ") " ++ fmtD c
              ++ " (" ++ (if c > 0 then "e" else "w") ++ ") -->\n")))
      ∧ (∀ s : String, fmtQ s = "\"" ++ s ++ "\"") := by
  refine ⟨?_, fun r => ?_, fun c => ?_, fun r c => rfl, fun s => rfl⟩
  · have h := renderTable_eq fnd tried ""
    rw [String.empty_append] at h
    exact h
  · simp only [List.mem_filter, decide_eq_true_eq, rowRange, List.mem_map, List.mem_range]
    constructor
    · rintro ⟨⟨i, hi, rfl⟩, hne⟩
      omega
    · rintro ⟨h1, h2, h3⟩
      exact ⟨⟨(50 - r).toNat, by omega, by omega⟩, h3⟩
  · simp only [List.mem_filter, decide_eq_true_eq, colRange, List.mem_map, List.mem_range]
    constructor
    · rintro ⟨⟨i, hi, rfl⟩, hne⟩
      omega
    · rintro ⟨h1, h2, h3⟩
      exact ⟨⟨(c + 50).toNat, by omega, by omega⟩, h3⟩

/-- C10 (counterexample). Two found names whose file is empty.  First: the directory
starts with an empty file `1n1e.png`, the server has no tile, the seed is `(1, n, 1, e)`;
the run is complete, `1n1e.png` is found and its file holds no byte.  Second: the directory
starts empty and the server answers 200 with an empty body for `1n1e.png`; the run is
complete, `1n1e.png` is found and its file holds no byte. -/
theorem found_file_may_be_empty :
    (Complete (run (serverWith []) (init (diskWith "1n1e.png" []) [seed11]) (firstAlways 36))
      ∧ "1n1e.png" ∈ (run (serverWith []) (init (diskWith "1n1e.png" []) [seed11])
          (firstAlways 36)).found
      ∧ (run (serverWith []) (init (diskWith "1n1e.png" []) [seed11])
          (firstAlways 36)).disk "1n1e.png" = some [])
    ∧ (Complete (run emptyBodyServer (init emptyDisk [seed11]) (firstAlways 38))
      ∧ "1n1e.png" ∈ (run emptyBodyServer (init emptyDisk [seed11]) (firstAlways 38)).found
      ∧ (run emptyBodyServer (init emptyDisk [seed11]) (firstAlways 38)).disk "1n1e.png"
          = some []) := by
  decide

/-- C10 (amended). For every name in `found`, in every state of a run (for every server,
every directory at the start, every seed list and every schedule), the file of that name
exists in the output directory, and its contents are those of the file the directory had at
the start or the whole body of a 2xx response for that name.  So the file is non-empty
unless the file at the start was empty or the 2xx body was empty: when every file of the
directory at the start holds at least one byte and every 2xx body holds at least one byte,
`download` marks a name found only if its file holds at least one byte. -/
theorem found_file_nonempty (env : Env) (disk0 : Disk) (seeds : List Coord)
    (sched : List Nat) (x : String) (hx : x ∈ (run env (init disk0 seeds) sched).found) :
    ∃ bytes, (run env (init disk0 seeds) sched).disk x = some bytes
      ∧ (disk0 x = some bytes ∨ ∃ code, env.get x = Resp.status code bytes ∧ code / 100 = 2)
      ∧ ((∀ y b, disk0 y = some b → 1 ≤ b.length) →
          (∀ y code b, env.get y = Resp.status code b → code / 100 = 2 → 1 ≤ b.length) →
          1 ≤ bytes.length) := by
  obtain ⟨bytes, hd, hsrc⟩ := found_content env disk0 seeds sched x hx
  refine ⟨bytes, hd, hsrc, fun h0 hg => ?_⟩
  rcases hsrc with h | ⟨code, h, h2⟩
  · exact h0 x bytes h
  · exact hg x code bytes h h2

/-- C10 (witness): the chain after a complete run, for the name `1n3e.png`; the directory
starts empty and every 2xx body of the server has four bytes. -/
theorem found_file_nonempty_witness :
    "1n3e.png" ∈ (run (serverWith chainTiles) (init emptyDisk [seed11]) (firstAlways 135)).found
      ∧ (∀ y b, emptyDisk y = some b → 1 ≤ b.length)
      ∧ (∀ y code b, (serverWith chainTiles).get y = Resp.status code b → code / 100 = 2 →
          1 ≤ b.length)
      ∧ ∃ bytes, (run (serverWith chainTiles) (init emptyDisk [seed11])
            (firstAlways 135)).disk "1n3e.png" = some bytes
          ∧ (emptyDisk "1n3e.png" = some bytes
            ∨ ∃ code, (serverWith chainTiles).get "1n3e.png" = Resp.status code bytes
                ∧ code / 100 = 2)
          ∧ ((∀ y b, emptyDisk y = some b → 1 ≤ b.length) →
              (∀ y code b, (serverWith chainTiles).get y = Resp.status code b →
                code / 100 = 2 → 1 ≤ b.length) →
              1 ≤ bytes.length) :=
  ⟨by decide, (fun _ _ h => Option.noConfusion h), serverWith_body chainTiles,
    found_file_nonempty (serverWith chainTiles) emptyDisk [seed11] (firstAlways 135)
      "1n3e.png" (by decide)⟩

end Clickdrag
